import Mathlib

/-!
Verification of the audio/RAG pipeline of the `ai-meeting-assistant` repository.

Each section shallowly embeds one unit of the Rust source
(`src/src-tauri/src/...`) as executable Lean definitions and proves the
spec-level properties about it.  Machine integers (`u64`, `usize`) are
modelled as `Nat` with explicit saturation where the source saturates;
strings are `String`/`List Char`; fallible code returns `Except`.
-/

set_option maxHeartbeats 1000000
set_option maxRecDepth 16000

namespace AiMeeting

/-! ## `rag/chunker.rs` -/

/-- Rust `usize::min` / `u64::min`. -/
def natMin (a b : Nat) : Nat := if a ≤ b then a else b

/-- Rust `usize::max` / `u64::max`. -/
def natMax (a b : Nat) : Nat := if a ≤ b then b else a

theorem natMin_eq (a b : Nat) : natMin a b = min a b := by
  unfold natMin
  rcases Nat.le_total a b with h | h
  · rw [if_pos h, Nat.min_eq_left h]
  · rcases Nat.le_total b a with h2 | h2
    · rw [Nat.min_eq_right h]
      split <;> omega
    · rw [if_pos h2, Nat.min_eq_left h2]

theorem natMax_eq (a b : Nat) : natMax a b = max a b := by
  unfold natMax
  rcases Nat.le_total a b with h | h
  · rw [if_pos h, Nat.max_eq_right h]
  · rcases Nat.le_total b a with h2 | h2
    · rw [Nat.max_eq_left h]
      split <;> omega
    · rw [if_pos h2, Nat.max_eq_right h2]

namespace Chunker

/-- `DEFAULT_SOFT_WINDOW` from `rag/chunker.rs`. -/
def DEFAULT_SOFT_WINDOW : Nat := 120

/-- The `BOUNDARIES` array from `rag/chunker.rs`. -/
def BOUNDARIES : List Char :=
  ['\n', '。', '！', '？', '.', '!', '?', ';', '；', '、', '，', ',']

def isBoundary (c : Char) : Bool := BOUNDARIES.contains c

/-- Body of the `for idx in (window_start..end).rev()` loop of `find_boundary`:
scans `count` positions downward starting at `idx`, returning `idx + 1` for the
first boundary character found. -/
def findBoundaryAux (chars : List Char) : Nat → Nat → Option Nat
  | 0, _ => none
  | count + 1, idx =>
    if isBoundary (chars.getD idx ' ') then some (idx + 1)
    else findBoundaryAux chars count (idx - 1)

/-- `find_boundary` from `rag/chunker.rs`: the last boundary character in
`[max (endI - 120) start, endI)`, as the position one past it. -/
def find_boundary (chars : List Char) (start endI : Nat) : Option Nat :=
  let windowStart := natMax (endI - DEFAULT_SOFT_WINDOW) start
  findBoundaryAux chars (endI - windowStart) (endI - 1)

/-- `let mut end = (start + chunk_size).min(chars.len())` of `chunk_text`. -/
def segEnd0 (chars : List Char) (chunkSize start : Nat) : Nat :=
  natMin (start + chunkSize) chars.length

/-- The window end after boundary snapping (`chunk_text` lines 23-29): when
`end < chars.len()` and a boundary position `best > start` is found, snap the
end to `best`. -/
def segEnd1 (chars : List Char) (chunkSize start : Nat) : Nat :=
  if segEnd0 chars chunkSize start < chars.length then
    match find_boundary chars start (segEnd0 chars chunkSize start) with
    | some best => if start < best then best else segEnd0 chars chunkSize start
    | none => segEnd0 chars chunkSize start
  else segEnd0 chars chunkSize start

/-- The end position a `chunk_text` loop iteration settles on for a window
starting at `start`, with the re-computation of lines 31-35 of `chunker.rs`
folded in (`if end <= start` restore `(start + chunk_size).min(len)`). -/
def segEnd (chars : List Char) (chunkSize start : Nat) : Nat :=
  if segEnd1 chars chunkSize start ≤ start then segEnd0 chars chunkSize start
  else segEnd1 chars chunkSize start

/-- The next loop start (`chunk_text` lines 47-52): `next_start = end - overlap`
(saturating), or `end` when that would not advance. -/
def nextStart (chars : List Char) (chunkSize overlap start : Nat) : Nat :=
  if segEnd chars chunkSize start - overlap ≤ start then segEnd chars chunkSize start
  else segEnd chars chunkSize start - overlap

/-- The `[start, end)` windows visited by the `while start < chars.len()` loop
of `chunk_text`, including windows whose chunk is later discarded as
whitespace-only.  The loop breaks after a window reaching `chars.len()`.
`fuel` is an explicit iteration budget standing in for the Rust loop's
termination: every iteration advances `start` by at least one, so any
`fuel ≥ chars.len() - start` gives the loop's exact behaviour
(`chunkLoop_fuel_irrel`). -/
def chunkLoop (chars : List Char) (chunkSize overlap : Nat) :
    Nat → Nat → List (Nat × Nat)
  | 0, _ => []
  | fuel + 1, start =>
    if start < chars.length then
      if segEnd chars chunkSize start ≤ start then []
      else if chars.length ≤ segEnd chars chunkSize start then
        [(start, segEnd chars chunkSize start)]
      else
        (start, segEnd chars chunkSize start) ::
          chunkLoop chars chunkSize overlap fuel
            (nextStart chars chunkSize overlap start)
    else []

/-- The slice `chars[s..e]` of the Rust source (`e` past the end). -/
def slice (chars : List Char) (s e : Nat) : List Char :=
  (chars.drop s).take (e - s)

/-- `!chunk.trim().is_empty()` from `chunk_text`: the chunk has at least one
non-whitespace character. -/
def trimNonempty (piece : List Char) : Bool :=
  piece.any (fun c => !c.isWhitespace)

/-- The chunk-producing loop of `chunk_text` (`rag/chunker.rs` lines 21-53):
identical control flow to `chunkLoop`, pushing each window's text unless its
trimmed content is empty. -/
def chunkTextLoop (chars : List Char) (chunkSize overlap : Nat) :
    Nat → Nat → List (List Char)
  | 0, _ => []
  | fuel + 1, start =>
    if start < chars.length then
      if segEnd chars chunkSize start ≤ start then []
      else if chars.length ≤ segEnd chars chunkSize start then
        if trimNonempty (slice chars start (segEnd chars chunkSize start)) then
          [slice chars start (segEnd chars chunkSize start)]
        else []
      else
        (if trimNonempty (slice chars start (segEnd chars chunkSize start)) then
          [slice chars start (segEnd chars chunkSize start)]
        else []) ++
          chunkTextLoop chars chunkSize overlap fuel
            (nextStart chars chunkSize overlap start)
    else []

/-- `chunk_text` from `rag/chunker.rs`.  Empty `chunk_size` or empty text give
no chunks; otherwise `overlap` is clamped to `chunk_size - 1` and the loop
runs from position 0. -/
def chunk_text (text : String) (chunkSize overlap : Nat) : List String :=
  if chunkSize = 0 then []
  else if text.data.isEmpty then []
  else
    (chunkTextLoop text.data chunkSize (natMin overlap (chunkSize - 1))
      text.data.length 0).map (fun piece => String.mk piece)

/-- The windows `chunk_text text chunkSize overlap` visits (with the same
overlap clamping). -/
def chunkWindows (text : String) (chunkSize overlap : Nat) : List (Nat × Nat) :=
  if chunkSize = 0 then []
  else if text.data.isEmpty then []
  else chunkLoop text.data chunkSize (natMin overlap (chunkSize - 1)) text.data.length 0

/-- Concatenation of the windows' contents with overlapping prefixes removed:
each window contributes the part of `chars[s..e]` past the furthest position
`p` already covered. -/
def reassemble (chars : List Char) : Nat → List (Nat × Nat) → List Char
  | _, [] => []
  | p, (s, e) :: ws => slice chars (max s p) e ++ reassemble chars (max p e) ws

theorem findBoundaryAux_le {chars : List Char} :
    ∀ {count idx b : Nat}, findBoundaryAux chars count idx = some b → b ≤ idx + 1 := by
  intro count
  induction count with
  | zero => intro idx b h; simp [findBoundaryAux] at h
  | succ n ih =>
    intro idx b h
    rw [findBoundaryAux] at h
    split at h
    · simp only [Option.some.injEq] at h
      omega
    · have := ih h
      omega

theorem find_boundary_le {chars : List Char} {start endI b : Nat}
    (h : find_boundary chars start endI = some b) : b ≤ endI := by
  unfold find_boundary at h
  rcases Nat.eq_zero_or_pos endI with h0 | h0
  · subst h0
    simp [findBoundaryAux, Nat.zero_sub] at h
  · have := findBoundaryAux_le h
    omega

theorem segEnd0_le_len (chars : List Char) (cs start : Nat) :
    segEnd0 chars cs start ≤ chars.length := by
  unfold segEnd0 natMin
  split <;> omega

theorem segEnd0_le_add (chars : List Char) (cs start : Nat) :
    segEnd0 chars cs start ≤ start + cs := by
  unfold segEnd0 natMin
  split <;> omega

theorem segEnd0_gt (chars : List Char) (cs start : Nat) (hlen : start < chars.length)
    (hcs : 1 ≤ cs) : start < segEnd0 chars cs start := by
  unfold segEnd0 natMin
  split <;> omega

theorem segEnd1_le (chars : List Char) (cs start : Nat) :
    segEnd1 chars cs start ≤ segEnd0 chars cs start := by
  unfold segEnd1
  rcases hfb : find_boundary chars start (segEnd0 chars cs start) with _ | b
  · simp only [hfb]
    split <;> omega
  · have hb := find_boundary_le hfb
    simp only [hfb]
    split
    · split <;> omega
    · omega

theorem segEnd_le_len (chars : List Char) (cs start : Nat) :
    segEnd chars cs start ≤ chars.length := by
  unfold segEnd
  have h0 := segEnd0_le_len chars cs start
  have h1 := segEnd1_le chars cs start
  split <;> omega

theorem segEnd_le_add (chars : List Char) (cs start : Nat) :
    segEnd chars cs start ≤ start + cs := by
  unfold segEnd
  have h0 := segEnd0_le_add chars cs start
  have h1 := segEnd1_le chars cs start
  split <;> omega

theorem segEnd_gt (chars : List Char) (cs start : Nat) (hlen : start < chars.length)
    (hcs : 1 ≤ cs) : start < segEnd chars cs start := by
  unfold segEnd
  have h0 := segEnd0_gt chars cs start hlen hcs
  split <;> omega

theorem slice_append_drop (chars : List Char) {p e : Nat} (hpe : p ≤ e) :
    slice chars p e ++ chars.drop e = chars.drop p := by
  unfold slice
  have hdrop : chars.drop e = (chars.drop p).drop (e - p) := by
    rw [List.drop_drop]
    congr 1
    omega
  rw [hdrop, List.take_append_drop]

theorem slice_empty (chars : List Char) {p e : Nat} (hep : e ≤ p) :
    slice chars p e = [] := by
  unfold slice
  rw [Nat.sub_eq_zero_of_le hep, List.take_zero]

/-- Every character of the input is reproduced: reassembling the windows the
`chunk_text` loop visits, with overlapping prefixes removed, yields the suffix
of the text from position `p` on. -/
theorem reassemble_chunkLoop (chars : List Char) (cs ov : Nat) (hcs : 1 ≤ cs) :
    ∀ fuel start p, chars.length - start ≤ fuel → start ≤ p →
      reassemble chars p (chunkLoop chars cs ov fuel start) = chars.drop p := by
  intro fuel
  induction fuel with
  | zero =>
    intro start p hn hp
    rw [chunkLoop, reassemble, List.drop_eq_nil_of_le (by omega)]
  | succ n ih =>
    intro start p hn hp
    rw [chunkLoop]
    split
    case isTrue h1 =>
      have hgt := segEnd_gt chars cs start h1 hcs
      have hle := segEnd_le_len chars cs start
      rw [if_neg (by omega)]
      split
      case isTrue h3 =>
        have he : segEnd chars cs start = chars.length := by omega
        rw [reassemble, reassemble]
        rw [Nat.max_eq_right hp, List.append_nil, he]
        unfold slice
        exact List.take_of_length_le (by rw [List.length_drop])
      case isFalse h3 =>
        rw [reassemble, Nat.max_eq_right hp]
        have hrec := ih (nextStart chars cs ov start) (max p (segEnd chars cs start))
          (by unfold nextStart; split <;> omega) (by unfold nextStart; split <;> omega)
        rw [hrec]
        rcases Nat.le_total p (segEnd chars cs start) with hpe | hpe
        · rw [Nat.max_eq_right hpe]
          exact slice_append_drop chars hpe
        · rw [Nat.max_eq_left hpe, slice_empty chars hpe, List.nil_append]
    case isFalse h1 =>
      rw [reassemble, List.drop_eq_nil_of_le (by omega)]

/-- The chunks `chunk_text` pushes are exactly the windows' contents with the
whitespace-only ones discarded. -/
theorem chunkTextLoop_eq_windows (chars : List Char) (cs ov : Nat) :
    ∀ fuel start, chunkTextLoop chars cs ov fuel start =
      ((chunkLoop chars cs ov fuel start).map (fun w => slice chars w.1 w.2)).filter
        trimNonempty := by
  intro fuel
  induction fuel with
  | zero =>
    intro start
    rw [chunkTextLoop, chunkLoop]
    simp
  | succ n ih =>
    intro start
    rw [chunkTextLoop, chunkLoop]
    split
    case isFalse h1 => simp
    case isTrue h1 =>
      split
      case isTrue h2 => simp
      case isFalse h2 =>
        split
        case isTrue h3 =>
          simp only [List.map_cons, List.map_nil, List.filter]
          split <;> simp_all
        case isFalse h3 =>
          rw [ih]
          simp only [List.map_cons, List.filter]
          split <;> simp_all

/-- The iteration budget is irrelevant once it covers `chars.len() - start`:
the loop finishes within that many iterations because `start` strictly
advances.  This is the termination argument for the Rust `while` loop. -/
theorem chunkLoop_fuel_irrel (chars : List Char) (cs ov : Nat) (hcs : 1 ≤ cs) :
    ∀ f1 f2 start, chars.length - start ≤ f1 → chars.length - start ≤ f2 →
      chunkLoop chars cs ov f1 start = chunkLoop chars cs ov f2 start := by
  have hnil : ∀ f start, chars.length ≤ start → chunkLoop chars cs ov f start = [] := by
    intro f start h
    cases f with
    | zero => rw [chunkLoop]
    | succ n => rw [chunkLoop, if_neg (by omega)]
  intro f1
  induction f1 with
  | zero =>
    intro f2 start h1 h2
    rw [hnil _ _ (by omega), hnil _ _ (by omega)]
  | succ n ih =>
    intro f2 start h1 h2
    cases f2 with
    | zero => rw [hnil _ _ (by omega), hnil _ _ (by omega)]
    | succ m =>
      rw [chunkLoop, chunkLoop]
      by_cases hstart : start < chars.length
      · rw [if_pos hstart, if_pos hstart]
        have hgt := segEnd_gt chars cs start hstart hcs
        have hne : ¬ segEnd chars cs start ≤ start := by omega
        by_cases h3 : chars.length ≤ segEnd chars cs start
        · rw [if_neg hne, if_neg hne, if_pos h3, if_pos h3]
        · rw [if_neg hne, if_neg hne, if_neg h3, if_neg h3]
          have hns1 : chars.length - nextStart chars cs ov start ≤ n := by
            unfold nextStart
            split <;> omega
          have hns2 : chars.length - nextStart chars cs ov start ≤ m := by
            unfold nextStart
            split <;> omega
          rw [ih m (nextStart chars cs ov start) hns1 hns2]
      · rw [if_neg hstart, if_neg hstart]

theorem chunkTextLoop_fuel_irrel (chars : List Char) (cs ov : Nat) (hcs : 1 ≤ cs)
    (f1 f2 start : Nat) (h1 : chars.length - start ≤ f1)
    (h2 : chars.length - start ≤ f2) :
    chunkTextLoop chars cs ov f1 start = chunkTextLoop chars cs ov f2 start := by
  rw [chunkTextLoop_eq_windows, chunkTextLoop_eq_windows,
    chunkLoop_fuel_irrel chars cs ov hcs f1 f2 start h1 h2]

/-- Claim C6 counterexample: on `"a b"` with `chunk_size = 1`, `overlap = 0`,
the middle window `" "` is discarded because its trimmed content is empty, so
the returned chunks are `["a", "b"]` and concatenating them (overlap is 0, so
no overlapping prefix is removed) gives `"ab"`, losing the space character of
the original text. -/
theorem chunk_text_counterexample :
    chunk_text "a b" 1 0 = ["a", "b"] ∧
    String.join (chunk_text "a b" 1 0) ≠ "a b" := by decide

/-- Claim C6 (amended): concatenating the windows visited by `chunk_text`
with overlapping prefixes removed reproduces the original text with no
character missing, and the chunks actually returned are exactly those
windows' contents with whitespace-only chunks discarded — so the coverage
property as originally claimed holds whenever no chunk is discarded. -/
theorem chunk_text_coverage (text : String) (chunkSize overlap : Nat)
    (hcs : 1 ≤ chunkSize) :
    reassemble text.data 0 (chunkWindows text chunkSize overlap) = text.data ∧
    chunk_text text chunkSize overlap =
      (((chunkWindows text chunkSize overlap).map
        (fun w => slice text.data w.1 w.2)).filter trimNonempty).map
        (fun piece => String.mk piece) := by
  have h0 : ¬ chunkSize = 0 := by omega
  constructor
  · unfold chunkWindows
    rw [if_neg h0]
    by_cases hemp : text.data.isEmpty
    · rw [if_pos hemp, reassemble]
      rw [List.isEmpty_iff] at hemp
      rw [hemp]
    · rw [if_neg hemp]
      have hcov := reassemble_chunkLoop text.data chunkSize
        (natMin overlap (chunkSize - 1)) hcs text.data.length 0 0 (by omega) le_rfl
      simpa using hcov
  · unfold chunk_text chunkWindows
    simp only [if_neg h0]
    by_cases hemp : text.data.isEmpty
    · simp only [if_pos hemp]
      simp
    · simp only [if_neg hemp, chunkTextLoop_eq_windows]

/-- Witness for `chunk_text_coverage` at a concrete input. -/
theorem chunk_text_coverage_witness :
    1 ≤ 2 ∧
      (reassemble "ab".data 0 (chunkWindows "ab" 2 0) = "ab".data ∧
        chunk_text "ab" 2 0 =
          (((chunkWindows "ab" 2 0).map
            (fun w => slice "ab".data w.1 w.2)).filter trimNonempty).map
            (fun piece => String.mk piece)) :=
  ⟨by decide, chunk_text_coverage "ab" 2 0 (by decide)⟩

/-- Claim C10: `chunk_text` terminates on every input — the loop finishes
within `text.len()` iterations (the explicit budget `text.data.length` is
irrelevant beyond that point, first conjunct) — and every chunk it returns
has at most `chunk_size` characters: the initial window end is
`(start + chunk_size).min(len)` and boundary snapping only ever moves the
end earlier. -/
theorem chunk_text_size_bound (text : String) (chunkSize overlap : Nat)
    (hcs : 1 ≤ chunkSize) :
    (∀ extra, chunkTextLoop text.data chunkSize (natMin overlap (chunkSize - 1))
        (text.data.length + extra) 0 =
      chunkTextLoop text.data chunkSize (natMin overlap (chunkSize - 1))
        text.data.length 0) ∧
    ∀ c ∈ chunk_text text chunkSize overlap, c.length ≤ chunkSize := by
  constructor
  · intro extra
    exact chunkTextLoop_fuel_irrel text.data chunkSize _ hcs _ _ 0 (by omega) (by omega)
  intro c hc
  unfold chunk_text at hc
  rw [if_neg (by omega)] at hc
  by_cases hemp : text.data.isEmpty
  · rw [if_pos hemp] at hc
    simp at hc
  · rw [if_neg hemp] at hc
    rw [chunkTextLoop_eq_windows] at hc
    simp only [List.mem_map] at hc
    obtain ⟨piece, hpiece, rfl⟩ := hc
    have hmem := List.mem_of_mem_filter hpiece
    simp only [List.mem_map] at hmem
    obtain ⟨w, hw, rfl⟩ := hmem
    have hbound : ∀ fuel start, ∀ w ∈ chunkLoop text.data chunkSize
        (natMin overlap (chunkSize - 1)) fuel start, w.2 ≤ w.1 + chunkSize := by
      intro fuel
      induction fuel with
      | zero =>
        intro start w hw
        rw [chunkLoop] at hw
        simp at hw
      | succ n ih =>
        intro start w hw
        rw [chunkLoop] at hw
        split at hw
        case isFalse => simp at hw
        case isTrue h1 =>
          split at hw
          case isTrue => simp at hw
          case isFalse h2 =>
            split at hw
            case isTrue h3 =>
              simp only [List.mem_singleton] at hw
              subst hw
              exact segEnd_le_add text.data chunkSize start
            case isFalse h3 =>
              simp only [List.mem_cons] at hw
              rcases hw with rfl | hw
              · exact segEnd_le_add text.data chunkSize start
              · exact ih _ w hw
    have hwb := hbound text.data.length 0 w hw
    have hsl : (slice text.data w.1 w.2).length ≤ w.2 - w.1 := by
      unfold slice
      exact List.length_take_le _ _
    show (String.mk (slice text.data w.1 w.2)).length ≤ chunkSize
    simp only [String.length]
    omega

/-- Witness for `chunk_text_size_bound` at `chunk_size = 3`. -/
theorem chunk_text_size_bound_witness :
    1 ≤ 3 ∧
      ((∀ extra, chunkTextLoop "hello world".data 3 (natMin 1 (3 - 1))
          ("hello world".data.length + extra) 0 =
        chunkTextLoop "hello world".data 3 (natMin 1 (3 - 1))
          "hello world".data.length 0) ∧
      ∀ c ∈ chunk_text "hello world" 3 1, c.length ≤ 3) :=
  ⟨by decide, chunk_text_size_bound "hello world" 3 1 (by decide)⟩

end Chunker

/-! ## `audio/manager.rs` data model and `audio/writer.rs` -/

/-- Maximum value of a Rust `u64`. -/
def U64_MAX : Nat := 2 ^ 64 - 1

/-- Rust `u64::saturating_mul` (operands assumed in range). -/
def saturatingMulU64 (a b : Nat) : Nat := natMin (a * b) U64_MAX

/-- `SegmentInfo` from `audio/manager.rs` (the persisted `SegmentRecord`).
`f32` similarity is modelled as an exact rational; machine integers as `Nat`. -/
structure SegmentInfo where
  name : String
  durationMs : Nat
  createdAt : String
  sampleRate : Nat
  channels : Nat
  transcript : Option String
  translation : Option String
  transcriptAt : Option String
  translationAt : Option String
  transcriptMs : Option Nat
  translationMs : Option Nat
  speakerId : Option Nat
  speakerChanged : Option Bool
  speakerSimilarity : Option Rat
  speakerSwitchesMs : Option (List Nat)
  deriving Repr, DecidableEq

namespace Writer

/-- The state of a `SegmentWriter` (`audio/writer.rs`): the WAV sink itself is
external I/O, so the model keeps the metadata the struct tracks.
`samples_written` is a `u64` counter incremented by `write`. -/
structure SegmentWriter where
  name : String
  createdAt : String
  sampleRate : Nat
  channels : Nat
  samplesWritten : Nat
  deriving Repr, DecidableEq

/-- `SegmentWriter::write`: appends samples and bumps `samples_written` by the
batch length (sample values go to the WAV file and do not affect metadata). -/
def SegmentWriter.write (w : SegmentWriter) (samples : List Rat) : SegmentWriter :=
  { w with samplesWritten := w.samplesWritten + samples.length }

/-- `SegmentWriter::finalize` (`audio/writer.rs` lines 49-85):
`frames = samples_written / channels` and
`duration_ms = frames.saturating_mul(1000) / sample_rate` (0 when the sample
rate is 0); all other record fields start unset. -/
def SegmentWriter.finalize (w : SegmentWriter) : SegmentInfo :=
  { name := w.name
    durationMs :=
      if w.sampleRate = 0 then 0
      else saturatingMulU64 (w.samplesWritten / w.channels) 1000 / w.sampleRate
    createdAt := w.createdAt
    sampleRate := w.sampleRate
    channels := w.channels
    transcript := none
    translation := none
    transcriptAt := none
    translationAt := none
    transcriptMs := none
    translationMs := none
    speakerId := none
    speakerChanged := none
    speakerSimilarity := none
    speakerSwitchesMs := none }

/-- Claim C5: for every `SegmentWriter` finalized with `sample_rate > 0` and
`channels >= 1` (and `samples_written` small enough that the `u64`
`saturating_mul` by 1000 does not saturate, as holds for any physical
recording), the produced record satisfies
`duration_ms = floor(frames * 1000 / sample_rate)` with
`frames = samples_written / channels` (`Nat` division is floor division). -/
theorem segment_writer_duration (w : SegmentWriter) (hsr : 0 < w.sampleRate)
    (hch : 1 ≤ w.channels) (hrange : w.samplesWritten * 1000 ≤ U64_MAX) :
    (w.finalize).durationMs = w.samplesWritten / w.channels * 1000 / w.sampleRate := by
  unfold SegmentWriter.finalize
  simp only
  rw [if_neg (by omega)]
  unfold saturatingMulU64 natMin
  have hframes : w.samplesWritten / w.channels ≤ w.samplesWritten :=
    Nat.div_le_self _ _
  rw [if_pos (by
    calc w.samplesWritten / w.channels * 1000 ≤ w.samplesWritten * 1000 :=
          Nat.mul_le_mul_right _ hframes
      _ ≤ U64_MAX := hrange)]

/-- Witness for `segment_writer_duration`: two seconds of 48 kHz stereo. -/
theorem segment_writer_duration_witness :
    (0 < 48000 ∧ 1 ≤ 2 ∧ 192000 * 1000 ≤ U64_MAX) ∧
      (SegmentWriter.finalize
        { name := "segment_x.wav", createdAt := "t", sampleRate := 48000,
          channels := 2, samplesWritten := 192000 }).durationMs =
        192000 / 2 * 1000 / 48000 :=
  ⟨⟨by decide, by decide, by decide⟩,
    segment_writer_duration
      { name := "segment_x.wav", createdAt := "t", sampleRate := 48000,
        channels := 2, samplesWritten := 192000 }
      (by decide) (by decide) (by decide)⟩

end Writer

/-! ## `audio/manager.rs`: `TranslationQueue` -/

namespace Manager

/-- `TranslationRequest` from `audio/manager.rs`. -/
structure TranslationRequest where
  name : String
  provider : Option String
  order : Nat
  generation : Nat
  deriving Repr, DecidableEq

/-- `TranslationQueueState` from `audio/manager.rs`: the ordered item list and
the `pending` name set (modelled as a duplicate-free list). -/
structure TranslationQueueState where
  items : List TranslationRequest
  pending : List String
  deriving Repr, DecidableEq

/-- `TranslationQueue::new`. -/
def emptyQueue : TranslationQueueState := { items := [], pending := [] }

/-- The insertion of `TranslationQueue::push`: insert before the first item
with a strictly larger `order` (`items.iter().position(|item| request.order <
item.order)`, default end of list). -/
def insertByOrder (r : TranslationRequest) :
    List TranslationRequest → List TranslationRequest
  | [] => [r]
  | x :: xs => if r.order < x.order then r :: x :: xs else x :: insertByOrder r xs

/-- `TranslationQueue::push`: a no-op when the name is already pending,
otherwise ordered insert plus pending registration. -/
def TranslationQueueState.push (q : TranslationQueueState)
    (r : TranslationRequest) : TranslationQueueState :=
  if r.name ∈ q.pending then q
  else { items := insertByOrder r q.items, pending := r.name :: q.pending }

/-- `TranslationQueue::pop` / `try_pop`: remove the head item and drop its name
from `pending`.  The source's `pop` blocks on a condition variable while the
queue is empty; the model returns `none` there. -/
def TranslationQueueState.pop (q : TranslationQueueState) :
    Option (TranslationRequest × TranslationQueueState) :=
  match q.items with
  | [] => none
  | r :: rest => some (r, { items := rest, pending := q.pending.erase r.name })

/-- `TranslationQueue::clear`. -/
def TranslationQueueState.clear (_ : TranslationQueueState) :
    TranslationQueueState :=
  { items := [], pending := [] }

/-- The operations other threads can interleave on the queue. -/
inductive QueueOp where
  | push (r : TranslationRequest)
  | pop
  | clear
  deriving Repr, DecidableEq

/-- Apply one operation (`pop` discards the dequeued request). -/
def applyQueueOp (q : TranslationQueueState) : QueueOp → TranslationQueueState
  | .push r => q.push r
  | .pop =>
    match q.pop with
    | none => q
    | some (_, q2) => q2
  | .clear => q.clear

/-- Run a sequence of queue operations from a starting state. -/
def runQueueOps (q : TranslationQueueState) : List QueueOp → TranslationQueueState
  | [] => q
  | op :: ops => runQueueOps (applyQueueOp q op) ops

/-- Well-formedness the queue maintains: items sorted by `order` ascending,
names duplicate-free, and `pending` is exactly the set of queued names. -/
def QueueWf (q : TranslationQueueState) : Prop :=
  q.items.Pairwise (fun a b => a.order ≤ b.order) ∧
  (q.items.map TranslationRequest.name).Nodup ∧
  q.pending.Nodup ∧
  ∀ n, n ∈ q.pending ↔ n ∈ q.items.map TranslationRequest.name

theorem insertByOrder_perm (r : TranslationRequest) :
    ∀ l : List TranslationRequest, List.Perm (insertByOrder r l) (r :: l) := by
  intro l
  induction l with
  | nil => rfl
  | cons x xs ih =>
    rw [insertByOrder]
    split
    · rfl
    · exact (ih.cons x).trans (List.Perm.swap r x xs)

theorem insertByOrder_sorted (r : TranslationRequest)
    {l : List TranslationRequest}
    (hl : l.Pairwise (fun a b => a.order ≤ b.order)) :
    (insertByOrder r l).Pairwise (fun a b => a.order ≤ b.order) := by
  induction l with
  | nil => simp [insertByOrder]
  | cons x xs ih =>
    rw [insertByOrder]
    rw [List.pairwise_cons] at hl
    split
    case isTrue h =>
      rw [List.pairwise_cons]
      constructor
      · intro y hy
        rcases List.mem_cons.mp hy with rfl | hy
        · omega
        · have := hl.1 y hy
          omega
      · exact List.Pairwise.cons hl.1 hl.2
    case isFalse h =>
      rw [List.pairwise_cons]
      constructor
      · intro y hy
        have hy2 := (insertByOrder_perm r xs).mem_iff.mp hy
        rcases List.mem_cons.mp hy2 with rfl | hy3
        · omega
        · exact hl.1 y hy3
      · exact ih hl.2

theorem push_wf {q : TranslationQueueState} (hq : QueueWf q)
    (r : TranslationRequest) : QueueWf (q.push r) := by
  obtain ⟨hsort, hnames, hpend, hiff⟩ := hq
  unfold TranslationQueueState.push
  split
  case isTrue h => exact ⟨hsort, hnames, hpend, hiff⟩
  case isFalse h =>
    have hperm : List.Perm ((insertByOrder r q.items).map TranslationRequest.name)
        (r.name :: q.items.map TranslationRequest.name) :=
      (insertByOrder_perm r q.items).map TranslationRequest.name
    refine ⟨insertByOrder_sorted r hsort, ?_, ?_, ?_⟩
    · rw [hperm.nodup_iff]
      exact List.nodup_cons.mpr ⟨fun hmem => h ((hiff r.name).mpr hmem), hnames⟩
    · exact List.nodup_cons.mpr ⟨h, hpend⟩
    · intro n
      rw [List.mem_cons, hperm.mem_iff, List.mem_cons, hiff n]

theorem pop_wf {q : TranslationQueueState} (hq : QueueWf q)
    {r : TranslationRequest} {q2 : TranslationQueueState}
    (hpop : q.pop = some (r, q2)) : QueueWf q2 := by
  obtain ⟨hsort, hnames, hpend, hiff⟩ := hq
  unfold TranslationQueueState.pop at hpop
  cases hitems : q.items with
  | nil => rw [hitems] at hpop; simp at hpop
  | cons x rest =>
    rw [hitems] at hpop
    simp only [Option.some.injEq, Prod.mk.injEq] at hpop
    obtain ⟨rfl, rfl⟩ := hpop
    rw [hitems] at hsort hnames hiff
    rw [List.pairwise_cons] at hsort
    rw [List.map_cons, List.nodup_cons] at hnames
    refine ⟨hsort.2, hnames.2, hpend.erase _, ?_⟩
    intro n
    rw [hpend.mem_erase_iff]
    constructor
    · rintro ⟨hne, hmem⟩
      rcases List.mem_cons.mp ((hiff n).mp hmem) with heq | hmem2
      · exact absurd heq hne
      · exact hmem2
    · intro hmem
      refine ⟨?_, (hiff n).mpr (List.mem_cons_of_mem _ hmem)⟩
      rintro rfl
      exact hnames.1 hmem

theorem runQueueOps_wf {q : TranslationQueueState} (hq : QueueWf q) :
    ∀ ops, QueueWf (runQueueOps q ops) := by
  intro ops
  induction ops generalizing q with
  | nil => exact hq
  | cons op ops ih =>
    rw [runQueueOps]
    apply ih
    cases op with
    | push r => exact push_wf hq r
    | pop =>
      unfold applyQueueOp
      cases hpop : q.pop with
      | none => exact hq
      | some pr =>
        rcases pr with ⟨r, q2⟩
        exact pop_wf hq hpop
    | clear =>
      refine ⟨List.Pairwise.nil, List.nodup_nil, List.nodup_nil, ?_⟩
      intro n
      simp [applyQueueOp, TranslationQueueState.clear]

theorem emptyQueue_wf : QueueWf emptyQueue :=
  ⟨List.Pairwise.nil, List.nodup_nil, List.nodup_nil, by simp [emptyQueue]⟩

/-- Claim C4 counterexample: the dequeue sequence is NOT always non-decreasing
within a generation.  From the empty queue (all requests in generation 0):
push order 2, pop it (order 2), push order 1, pop it (order 1) — the dequeued
`order` sequence `[2, 1]` decreases although no `clear` intervened.  The
translation worker emits `segment_translated` in dequeue order, so the event
order can decrease likewise when a lower-order segment is enqueued after a
higher-order one was already dequeued. -/
theorem translation_queue_order_counterexample :
    (emptyQueue.push ⟨"a", none, 2, 0⟩).pop =
      some (⟨"a", none, 2, 0⟩, emptyQueue) ∧
    (emptyQueue.push ⟨"b", none, 1, 0⟩).pop =
      some (⟨"b", none, 1, 0⟩, emptyQueue) ∧
    ¬ (2 : Nat) ≤ 1 := by
  decide

/-- Claim C4 (amended): the `TranslationQueue` keeps its items sorted by
`order` ascending and never holds two requests with the same name (pushing a
pending name is a no-op), for every reachable state; consequently any two
consecutive dequeues with no interleaved push yield non-decreasing `order`
values.  The unconditional claim fails (see the counterexample): a push with a
smaller order after a pop makes the next dequeued order decrease within the
same generation. -/
theorem translation_queue_props :
    (∀ ops, QueueWf (runQueueOps emptyQueue ops)) ∧
    (∀ (q : TranslationQueueState) (r : TranslationRequest),
      r.name ∈ q.pending → q.push r = q) ∧
    (∀ ops r1 q1 r2 q2,
      (runQueueOps emptyQueue ops).pop = some (r1, q1) →
      q1.pop = some (r2, q2) → r1.order ≤ r2.order) := by
  refine ⟨fun ops => runQueueOps_wf emptyQueue_wf ops, ?_, ?_⟩
  · intro q r hmem
    unfold TranslationQueueState.push
    rw [if_pos hmem]
  · intro ops r1 q1 r2 q2 h1 h2
    have hwf := runQueueOps_wf emptyQueue_wf ops
    obtain ⟨hsort, -, -, -⟩ := hwf
    unfold TranslationQueueState.pop at h1 h2
    cases hitems : (runQueueOps emptyQueue ops).items with
    | nil => rw [hitems] at h1; simp at h1
    | cons x rest =>
      rw [hitems] at h1 hsort
      simp only [Option.some.injEq, Prod.mk.injEq] at h1
      obtain ⟨rfl, rfl⟩ := h1
      cases hrest : rest with
      | nil => simp [hrest] at h2
      | cons y rest2 =>
        rw [hrest] at h2 hsort
        simp only [Option.some.injEq, Prod.mk.injEq] at h2
        obtain ⟨rfl, rfl⟩ := h2
        rw [List.pairwise_cons] at hsort
        exact hsort.1 _ (List.mem_cons_self _ _)

/-- Witness for `translation_queue_props` on a concrete run: two pushes then
two pops dequeue orders 1 then 2. -/
theorem translation_queue_props_witness :
    QueueWf (runQueueOps emptyQueue
      [.push ⟨"a", none, 2, 0⟩, .push ⟨"b", none, 1, 0⟩]) ∧
    ((emptyQueue.push ⟨"c", none, 5, 0⟩).push ⟨"c", none, 7, 0⟩ =
      emptyQueue.push ⟨"c", none, 5, 0⟩) ∧
    (1 : Nat) ≤ 2 := by
  refine ⟨translation_queue_props.1 _, ?_, ?_⟩
  · exact translation_queue_props.2.1 _ _ (by decide)
  · exact translation_queue_props.2.2
      [.push ⟨"a", none, 2, 0⟩, .push ⟨"b", none, 1, 0⟩]
      ⟨"b", none, 1, 0⟩ ⟨[⟨"a", none, 2, 0⟩], ["a"]⟩
      ⟨"a", none, 2, 0⟩ ⟨[], []⟩ (by decide) (by decide)

/-! ### Segment-name validation (`Path::file_name` on the name argument)

`read_segment_bytes` and `translate_segment` validate the `name` argument with
`Path::new(&name).file_name()`, rejecting the name unless the file-name
component equals the whole string.  The model mirrors `Path::file_name` for
Unix-style paths: split on `/`, drop empty and `.` components, return the last
component unless it is `..` (or nothing is left). -/

/-- Split a character list on a separator (keeping empty pieces). -/
def splitSep (sep : Char) : List Char → List (List Char)
  | [] => [[]]
  | c :: cs =>
    if c = sep then [] :: splitSep sep cs
    else
      match splitSep sep cs with
      | [] => [[c]]
      | p :: ps => (c :: p) :: ps

theorem splitSep_ne_nil (sep : Char) : ∀ l, splitSep sep l ≠ [] := by
  intro l
  induction l with
  | nil => simp [splitSep]
  | cons c cs ih =>
    rw [splitSep]
    split
    · simp
    · cases h : splitSep sep cs <;> simp

theorem splitSep_no_sep (sep : Char) :
    ∀ l, ∀ piece ∈ splitSep sep l, sep ∉ piece := by
  intro l
  induction l with
  | nil =>
    intro piece hp
    simp [splitSep] at hp
    simp [hp]
  | cons c cs ih =>
    intro piece hp
    rw [splitSep] at hp
    split at hp
    case isTrue hc =>
      rcases List.mem_cons.mp hp with rfl | hp2
      · simp
      · exact ih piece hp2
    case isFalse hc =>
      cases hs : splitSep sep cs with
      | nil => exact absurd hs (splitSep_ne_nil sep cs)
      | cons p ps =>
        rw [hs] at hp
        rcases List.mem_cons.mp hp with rfl | hp2
        · intro hmem
          rcases List.mem_cons.mp hmem with rfl | hmem2
          · exact hc rfl
          · exact ih p (hs ▸ List.mem_cons_self p ps) hmem2
        · exact ih piece (hs ▸ List.mem_cons_of_mem p hp2)

/-- Model of Rust `Path::new(name).file_name()` for Unix-style paths. -/
def fileName (s : String) : Option String :=
  match ((splitSep '/' s.data).filter (fun c => !c.isEmpty && c != ['.'])).getLast? with
  | none => none
  | some l => if l = ['.', '.'] then none else some (String.mk l)

/-- A name containing a path separator is never its own file-name component. -/
theorem fileName_ne_of_sep {s : String} (hsep : '/' ∈ s.data) :
    ∀ r, fileName s = some r → r ≠ s := by
  intro r hr
  unfold fileName at hr
  split at hr
  case h_1 => exact Option.noConfusion hr
  case h_2 l hlast =>
    split at hr
    · exact Option.noConfusion hr
    · injection hr with hr
      subst hr
      have hmem : l ∈ (splitSep '/' s.data).filter
          (fun c => !c.isEmpty && c != ['.']) := by
        obtain ⟨hne, hgl⟩ :=
          List.mem_getLast?_eq_getLast (Option.mem_def.mpr hlast)
        rw [hgl]
        exact List.getLast_mem hne
      have hmem2 : l ∈ splitSep '/' s.data := List.mem_of_mem_filter hmem
      have hnosep : '/' ∉ l := splitSep_no_sep '/' s.data l hmem2
      intro heq
      apply hnosep
      have hdata : l = s.data := congrArg String.data heq
      rw [hdata]
      exact hsep

/-! ### Transcript sanitization (`audio/manager.rs` lines 1058-1247)

`f32` thresholds are modelled as exact rationals and `to_lowercase` as ASCII
lowering (the compared strings are CJK or ASCII, where they agree). -/

/-- The `AsrConfig` fields the transcript post-filter reads. -/
structure AsrConfig where
  transcriptPostFilterEnabled : Option Bool := none
  transcriptNoiseMaxMeaningfulChars : Option Nat := none
  transcriptRepeatCharRatio : Option Rat := none
  deriving Repr, DecidableEq

/-- Rust `f32::clamp`. -/
def ratClamp (x lo hi : Rat) : Rat := if x < lo then lo else if hi < x then hi else x

def isBracketTrimChar (c : Char) : Bool :=
  c = '(' || c = ')' || c = '[' || c = ']'

/-- Rust `str::trim_matches`: strip matching characters from both ends. -/
def trimMatches (p : Char → Bool) (l : List Char) : List Char :=
  ((l.dropWhile p).reverse.dropWhile p).reverse

/-- Rust `str::trim`: strip whitespace from both ends. -/
def strTrim (s : String) : String :=
  ⟨trimMatches Char.isWhitespace s.data⟩

/-- `is_known_whisper_hallucination` from `audio/manager.rs`. -/
def is_known_whisper_hallucination (text : String) : Bool :=
  let compact :=
    (trimMatches isBracketTrimChar (strTrim text).data).filter (fun c => !c.isWhitespace)
  if compact.isEmpty then false
  else
    let compactLower := compact.map Char.toLower
    compactLower == "字幕製作:貝爾".data || compactLower == "字幕製作：貝爾".data ||
      compactLower == "字幕制作:贝尔".data || compactLower == "字幕制作：贝尔".data

/-- `is_meaningful_char`: ASCII alphanumerics plus kana, CJK and hangul ranges. -/
def is_meaningful_char (c : Char) : Bool :=
  let n := c.toNat
  (0x30 ≤ n && n ≤ 0x39) || (0x41 ≤ n && n ≤ 0x5a) || (0x61 ≤ n && n ≤ 0x7a) ||
    (0x3040 ≤ n && n ≤ 0x30ff) || (0x3400 ≤ n && n ≤ 0x4dbf) ||
    (0x4e00 ≤ n && n ≤ 0x9fff) || (0xac00 ≤ n && n ≤ 0xd7af)

/-- `most_frequent_char_ratio`: over meaningful characters, the count of the
most frequent one divided by the total (0 when there are none). -/
def most_frequent_char_ratio (text : String) : Rat :=
  let mchars := text.data.filter is_meaningful_char
  if mchars.length = 0 then 0
  else
    (((mchars.map (fun c => mchars.count c)).foldr natMax 0 : Nat) : Rat) /
      (mchars.length : Rat)

/-- The `NOISE_KEYWORDS` array of `count_noise_keyword_hits`. -/
def NOISE_KEYWORDS : List String :=
  ["music", "bgm", "applause", "laughter", "laugh", "lol", "lmao", "www",
    "字幕", "音楽", "音乐", "音樂", "背景音", "环境音", "掌声", "笑声", "笑い",
    "笑", "哈哈", "呵呵", "効果音", "拍手", "♪", "♫", "伴奏", "配乐", "配樂"]

/-- Rust `str::contains` on character lists. -/
def isSubstring (needle : List Char) : List Char → Bool
  | [] => needle.isEmpty
  | c :: cs => needle.isPrefixOf (c :: cs) || isSubstring needle cs

/-- `count_noise_keyword_hits`: how many keywords occur in the lowercased text. -/
def count_noise_keyword_hits (text : String) : Nat :=
  let lower := text.data.map Char.toLower
  (NOISE_KEYWORDS.filter (fun kw => isSubstring kw.data lower)).length

def isAsciiPunct (c : Char) : Bool :=
  let n := c.toNat
  (0x21 ≤ n && n ≤ 0x2f) || (0x3a ≤ n && n ≤ 0x40) ||
    (0x5b ≤ n && n ≤ 0x60) || (0x7b ≤ n && n ≤ 0x7e)

/-- `is_noise_punct`: ASCII punctuation plus the listed fullwidth marks. -/
def is_noise_punct (c : Char) : Bool :=
  isAsciiPunct c ||
    [(0xFF08 : Nat), 0xFF09, 0x3010, 0x3011, 0x300C, 0x300D, 0xFF1A, 0x3002,
      0xFF01, 0xFF1F, 0x3001, 0xFF0C].contains c.toNat

/-- The `NOISE_LABELS` array of `is_noise_label_only`. -/
def NOISE_LABELS : List String :=
  ["music", "bgm", "applause", "laugh", "laughter", "lol", "lmao", "www", "ww",
    "w", "noise", "static", "音楽", "音乐", "音樂", "背景音", "环境音", "効果音",
    "音效", "笑", "笑い", "笑声", "哈哈", "呵呵", "伴奏", "配乐", "配樂", "掌声"]

/-- `is_noise_label_only`: after stripping whitespace and noise punctuation and
lowercasing, the text equals one of the noise labels. -/
def is_noise_label_only (text : String) : Bool :=
  let normalized :=
    ((strTrim text).data.filter (fun c => !c.isWhitespace && !is_noise_punct c)).map
      Char.toLower
  if normalized.isEmpty then false
  else NOISE_LABELS.any (fun lab => normalized == lab.data)

/-- `should_drop_non_speech_transcript` from `audio/manager.rs`. -/
def should_drop_non_speech_transcript (text : String) (cfg : AsrConfig) : Bool :=
  if cfg.transcriptPostFilterEnabled = some false then false
  else
    let meaningful := (text.data.filter is_meaningful_char).length
    let noiseMax := natMax (cfg.transcriptNoiseMaxMeaningfulChars.getD 10) 1
    let repeatThreshold :=
      ratClamp (cfg.transcriptRepeatCharRatio.getD (72 / 100)) (1 / 2) (98 / 100)
    if is_noise_label_only text then true
    else if 0 < count_noise_keyword_hits text ∧ meaningful ≤ noiseMax then true
    else if 6 ≤ meaningful ∧ repeatThreshold ≤ most_frequent_char_ratio text then
      true
    else false

/-- `sanitize_transcript_text`: a rejected transcript becomes the empty string,
an accepted one is the trimmed text. -/
def sanitize_transcript_text (raw : String) (cfg : AsrConfig) : String :=
  let trimmed := strTrim raw
  if trimmed.isEmpty then ""
  else if is_known_whisper_hallucination trimmed then ""
  else if should_drop_non_speech_transcript trimmed cfg then ""
  else trimmed

/-! ### `CaptureManager` state machine

Sequential model of the capture manager's shared state and of the worker-loop
bodies that mutate it (`audio/manager.rs`).  Atomics become plain fields;
each worker-loop body is one step function whose external inputs (ASR result,
LLM batch response, clock readings) are parameters.  `usize::MAX` (used as the
order of an unknown segment) equals `U64_MAX` on the 64-bit targets the app
builds for. -/

/-- One parsed element of a batch-translation LLM response
(`BatchTranslationResult` in `translate.rs`). -/
structure BatchResult where
  translation : String
  cleanedSource : Option String
  deriving Repr, DecidableEq

/-- `SegmentTranslationHistory` from `audio/manager.rs` (the
`previousBatch` entries are `CleanedBatchItem`s: name and cleaned text). -/
structure SegmentTranslationHistory where
  generation : Nat
  provider : Option String
  previousBatch : List (String × String)
  deriving Repr, DecidableEq

/-- The shared state of `CaptureManager`, together with the transcription
task channel feeding `run_transcription_worker` (entries: segment name and
the transcription generation stamped at send time). -/
structure CaptureManager where
  segments : List SegmentInfo
  queue : TranslationQueueState
  translationPending : List (String × Option String)
  transcribeTasks : List (String × Nat)
  dropSegmentTranslation : Bool
  transcriptionGeneration : Nat
  translationGeneration : Nat
  deriving Repr, DecidableEq

/-- `CaptureManager::new` (`audio/manager.rs` lines 370-381):
`drop_segment_translation` starts out `true`. -/
def CaptureManager.new : CaptureManager :=
  { segments := [], queue := emptyQueue, translationPending := [],
    transcribeTasks := [], dropSegmentTranslation := true,
    transcriptionGeneration := 0, translationGeneration := 0 }

/-- The state effect of `CaptureManager::start` (line 491):
`drop_segment_translation.store(false)`. -/
def CaptureManager.start (m : CaptureManager) : CaptureManager :=
  { m with dropSegmentTranslation := false }

/-- `segments.iter().find(|segment| segment.name == name)`. -/
def findSegment (segments : List SegmentInfo) (name : String) : Option SegmentInfo :=
  segments.find? (fun s => s.name == name)

/-- `segment_order`: the index of the segment in the list, `usize::MAX` when
absent. -/
def segment_order (segments : List SegmentInfo) (name : String) : Nat :=
  match segments.findIdx? (fun s => s.name == name) with
  | some i => i
  | none => U64_MAX

/-- `enqueue_translation`: push a request stamped with the current translation
generation and the segment's current index. -/
def enqueue_translation (queue : TranslationQueueState)
    (segments : List SegmentInfo) (gen : Nat) (name : String)
    (provider : Option String) : TranslationQueueState :=
  queue.push
    { name := name, provider := provider, order := segment_order segments name,
      generation := gen }

/-- Lookup in the `translation_pending` map (`HashMap<String, Option<String>>`). -/
def pendingLookup (l : List (String × Option String)) (n : String) :
    Option (Option String) :=
  (l.find? (fun e => e.1 == n)).map (fun e => e.2)

/-- `guard.entry(name).or_insert(provider)`. -/
def pendingOrInsert (l : List (String × Option String)) (n : String)
    (p : Option String) : List (String × Option String) :=
  if (pendingLookup l n).isSome then l else l ++ [(n, p)]

/-- `take_pending_translation`: remove the entry and return its provider. -/
def pendingTake (l : List (String × Option String)) (n : String) :
    Option (Option String) × List (String × Option String) :=
  match l.find? (fun e => e.1 == n) with
  | none => (none, l)
  | some e => (some e.2, l.eraseP (fun e2 => e2.1 == n))

/-- `provider.filter(|value| !value.trim().is_empty())`. -/
def providerFilter (p : Option String) : Option String :=
  match p with
  | some v => if (strTrim v).isEmpty then none else some v
  | none => none

/-- Disk operations a command performs, for the no-disk-access claims.
`ensureSegmentsDir` is `ensure_segments_dir` (creates the fixed segments
directory; it involves no segment name). -/
inductive FsOp where
  | ensureSegmentsDir
  | readFile (path : String)
  deriving Repr, DecidableEq

/-- `CaptureManager::translate_segment` (lines 630-675): validate the name via
`Path::file_name`, silently accept-and-drop while `drop_segment_translation`
is set, else enqueue when a transcript (possibly empty) exists, else defer in
the pending map.  The second component lists the disk operations performed. -/
def CaptureManager.translateSegment (m : CaptureManager) (name : String)
    (provider : Option String) : Except String CaptureManager × List FsOp :=
  match fileName name with
  | none => (.error "invalid segment name", [.ensureSegmentsDir])
  | some safe =>
    if safe ≠ name then (.error "invalid segment name", [.ensureSegmentsDir])
    else
      let provider := providerFilter provider
      if m.dropSegmentTranslation then (.ok m, [.ensureSegmentsDir])
      else if ((findSegment m.segments name).bind (fun s => s.transcript)).isSome then
        (.ok { m with
          queue := enqueue_translation m.queue m.segments m.translationGeneration
            name provider }, [.ensureSegmentsDir])
      else
        (.ok { m with
          translationPending := pendingOrInsert m.translationPending name provider },
          [.ensureSegmentsDir])

/-- `CaptureManager::read_segment_bytes` (lines 587-598): validate the name,
then read `<segments_dir>/<name>`.  `disk` abstracts the filesystem. -/
def readSegmentBytes (disk : String → Option (List Nat)) (name : String) :
    Except String (List Nat) × List FsOp :=
  match fileName name with
  | none => (.error "invalid segment name", [.ensureSegmentsDir])
  | some safe =>
    if safe ≠ name then (.error "invalid segment name", [.ensureSegmentsDir])
    else
      match disk name with
      | some bytes => (.ok bytes, [.ensureSegmentsDir, .readFile name])
      | none => (.error "read failed", [.ensureSegmentsDir, .readFile name])

/-- `CaptureManager::clear_task_queues` (lines 677-691). -/
def CaptureManager.clearTaskQueues (m : CaptureManager) : CaptureManager :=
  { m with
      dropSegmentTranslation := true
      transcriptionGeneration := m.transcriptionGeneration + 1
      translationGeneration := m.translationGeneration + 1
      translationPending := []
      queue := m.queue.clear }

/-- `CaptureManager::clear` (lines 600-628): `stop` runs `clear_task_queues`,
then the segment list, pending map and queue are purged. -/
def CaptureManager.clearAll (m : CaptureManager) : CaptureManager :=
  let m1 := m.clearTaskQueues
  { m1 with segments := [], translationPending := [], queue := m1.queue.clear }

/-- `push_segment` plus the `TranscriptionTask` send that follows it in the
finalize path: append the freshly finalized record and queue its task. -/
def CaptureManager.pushSegment (m : CaptureManager) (w : Writer.SegmentWriter) :
    CaptureManager :=
  { m with
      segments := m.segments ++ [w.finalize]
      transcribeTasks :=
        m.transcribeTasks ++ [(w.finalize.name, m.transcriptionGeneration)] }

/-- `segments.iter_mut().find(...)` followed by a field update. -/
def updateFirst (p : SegmentInfo → Bool) (f : SegmentInfo → SegmentInfo) :
    List SegmentInfo → List SegmentInfo
  | [] => []
  | x :: xs => if p x then f x :: xs else x :: updateFirst p f xs

/-- The segment-list effect of `apply_transcript`. -/
def applyTranscriptSegs (segs : List SegmentInfo) (name : String)
    (transcript : Option String) (elapsed : Nat) (now : String) :
    List SegmentInfo :=
  updateFirst (fun s => s.name == name)
    (fun s => { s with
      transcript := transcript
      transcriptAt := some now
      transcriptMs := some elapsed }) segs

/-- The segment-list effect of `apply_translation`. -/
def applyTranslationSegs (segs : List SegmentInfo) (name : String)
    (translation : Option String) (elapsed : Nat) (now : String) :
    List SegmentInfo :=
  updateFirst (fun s => s.name == name)
    (fun s => { s with
      translation := translation
      translationAt := some now
      translationMs := some elapsed }) segs

/-- One iteration of `run_transcription_worker` (lines 1265-1302): receive the
next task, skip it when its generation is stale, otherwise store the sanitized
transcript (the empty string on ASR failure) and, unless translations are
being dropped, enqueue a pending translation request for this segment. -/
def CaptureManager.transcribeStep (m : CaptureManager)
    (asr : Except String String) (cfg : AsrConfig) (elapsed : Nat)
    (now : String) : CaptureManager :=
  match m.transcribeTasks with
  | [] => m
  | (name, gen) :: rest =>
    let m0 := { m with transcribeTasks := rest }
    if gen ≠ m0.transcriptionGeneration then m0
    else
      let raw := match asr with | .ok t => t | .error _ => ""
      let transcript := some (sanitize_transcript_text raw cfg)
      let m1 := { m0 with
        segments := applyTranscriptSegs m0.segments name transcript elapsed now }
      if m1.dropSegmentTranslation then m1
      else
        match pendingTake m1.translationPending name with
        | (none, _) => m1
        | (some provider, pending2) =>
          { m1 with
            translationPending := pending2
            queue := enqueue_translation m1.queue m1.segments
              m1.translationGeneration name provider }

/-- Lookup in the parsed LLM batch response (`HashMap<String, BatchTranslationResult>`). -/
def lookupBatch (resp : List (String × BatchResult)) (n : String) :
    Option BatchResult :=
  (resp.find? (fun e => e.1 == n)).map (fun e => e.2)

/-- The `all_items` accumulation of `translate_segment_provider_group`:
context items first, then current items not already present (dedup by id). -/
def dedupAppend (ctx cur : List (String × String)) : List (String × String) :=
  cur.foldl (fun acc it => if acc.any (fun e => e.1 == it.1) then acc
    else acc ++ [it]) ctx

/-- `translate_segment_provider_group` (lines 1419-1560) for one provider run:
reset the history on generation or provider change, collect the batch items
that still match the generation and have a transcript (possibly empty), send
them with the previous batch as context, then apply every returned
translation (the empty string for missing ids or on batch failure) and update
the history.  `resp` is the LLM call's outcome. -/
def providerGroup (m : CaptureManager) (hist : SegmentTranslationHistory)
    (requests : List TranslationRequest)
    (resp : Except String (List (String × BatchResult))) (elapsed : Nat)
    (now : String) : CaptureManager × SegmentTranslationHistory :=
  if requests.isEmpty then (m, hist)
  else
    let active := m.translationGeneration
    let provider := (requests.head?).bind (fun r => r.provider)
    let hist1 :=
      if hist.generation ≠ active ∨ hist.provider ≠ provider then
        { generation := active, provider := provider, previousBatch := [] }
      else hist
    let currentItems := requests.filterMap (fun r =>
      if r.generation ≠ active then none
      else ((findSegment m.segments r.name).bind (fun s => s.transcript)).map
        (fun t => (r.name, t)))
    if currentItems.isEmpty then (m, hist1)
    else
      let maxBatch := 1
      let contextItems :=
        hist1.previousBatch.drop (hist1.previousBatch.length - maxBatch)
      let allNames := (dedupAppend contextItems currentItems).map (fun it => it.1)
      match resp with
      | .ok translations =>
        if m.translationGeneration ≠ active then (m, hist1)
        else
          let segs2 := allNames.foldl (fun segs n =>
            applyTranslationSegs segs n
              (some (((lookupBatch translations n).map
                (fun r => r.translation)).getD "")) elapsed now) m.segments
          let newBatch := currentItems.map (fun it =>
            (it.1,
              match (lookupBatch translations it.1).bind (fun r => r.cleanedSource) with
              | some cs => if (strTrim cs).isEmpty then it.2 else cs
              | none => it.2))
          ({ m with segments := segs2 },
            { generation := active, provider := provider,
              previousBatch := newBatch.drop (newBatch.length - maxBatch) })
      | .error _ =>
        if m.translationGeneration ≠ active then (m, hist1)
        else
          let segs2 := allNames.foldl (fun segs n =>
            applyTranslationSegs segs n (some "") elapsed now) m.segments
          ({ m with segments := segs2 },
            { generation := active, provider := provider, previousBatch := [] })

/-- One iteration of `run_translation_worker` (lines 1562-1599) with the
hard-coded batch size 1 (`load_segment_translation_batch_config`): pop the
first request, discard it when its generation is stale, otherwise run the
provider group on the singleton batch. -/
def CaptureManager.workerStep (m : CaptureManager)
    (hist : SegmentTranslationHistory)
    (resp : Except String (List (String × BatchResult))) (elapsed : Nat)
    (now : String) : CaptureManager × SegmentTranslationHistory :=
  match m.queue.pop with
  | none => (m, hist)
  | some (first, q2) =>
    let m1 := { m with queue := q2 }
    if first.generation ≠ m1.translationGeneration then (m1, hist)
    else providerGroup m1 hist [first] resp elapsed now

/-- External stimuli of the manager: UI commands, capture finalize, and the
two worker loops with their external inputs. -/
inductive ManagerAct where
  | start
  | translateSegment (name : String) (provider : Option String)
  | clearTaskQueues
  | clearAll
  | pushSegment (w : Writer.SegmentWriter)
  | transcribeStep (asr : Except String String) (cfg : AsrConfig)
      (elapsed : Nat) (now : String)
  | workerStep (resp : Except String (List (String × BatchResult)))
      (elapsed : Nat) (now : String)
  deriving Repr

/-- Apply one stimulus.  A rejected `translate_segment` leaves the state
unchanged. -/
def stepManager (s : CaptureManager × SegmentTranslationHistory)
    (a : ManagerAct) : CaptureManager × SegmentTranslationHistory :=
  match a with
  | .start => (s.1.start, s.2)
  | .translateSegment name p =>
    match (s.1.translateSegment name p).1 with
    | .ok m2 => (m2, s.2)
    | .error _ => s
  | .clearTaskQueues => (s.1.clearTaskQueues, s.2)
  | .clearAll => (s.1.clearAll, s.2)
  | .pushSegment w => (s.1.pushSegment w, s.2)
  | .transcribeStep asr cfg e t => (s.1.transcribeStep asr cfg e t, s.2)
  | .workerStep resp e t => s.1.workerStep s.2 resp e t

/-- A fresh process: new manager, default worker history. -/
def initManager : CaptureManager × SegmentTranslationHistory :=
  (CaptureManager.new, { generation := 0, provider := none, previousBatch := [] })

def runManager (s : CaptureManager × SegmentTranslationHistory) :
    List ManagerAct → CaptureManager × SegmentTranslationHistory
  | [] => s
  | a :: rest => runManager (stepManager s a) rest

/-! ### Claim C9: invalid names are rejected before any disk access -/

/-- Claim C9: for every segment name containing a path separator,
`read_segment_bytes` and `translate_segment` return the `invalid segment
name` error immediately, and the only disk operation either performs is
creating the fixed segments directory — nothing on disk is read, written or
deleted for that name. -/
theorem invalid_name_rejected (name : String) (hsep : '/' ∈ name.data)
    (disk : String → Option (List Nat)) (m : CaptureManager)
    (provider : Option String) :
    readSegmentBytes disk name =
      (.error "invalid segment name", [.ensureSegmentsDir]) ∧
    (m.translateSegment name provider).1 = .error "invalid segment name" ∧
    (m.translateSegment name provider).2 = [.ensureSegmentsDir] ∧
    ∀ op ∈ (readSegmentBytes disk name).2 ++ (m.translateSegment name provider).2,
      op = FsOp.ensureSegmentsDir := by
  have hfn := fileName_ne_of_sep hsep
  unfold readSegmentBytes CaptureManager.translateSegment
  cases hf : fileName name with
  | none => simp
  | some safe =>
    have hne := hfn safe hf
    simp [hne]

/-- Witness for `invalid_name_rejected` at `name = "a/b"`. -/
theorem invalid_name_rejected_witness :
    '/' ∈ "a/b".data ∧
      (readSegmentBytes (fun _ => none) "a/b" =
        (.error "invalid segment name", [.ensureSegmentsDir]) ∧
      (CaptureManager.new.translateSegment "a/b" none).1 =
        .error "invalid segment name" ∧
      (CaptureManager.new.translateSegment "a/b" none).2 = [.ensureSegmentsDir] ∧
      ∀ op ∈ (readSegmentBytes (fun _ => none) "a/b").2 ++
          (CaptureManager.new.translateSegment "a/b" none).2,
        op = FsOp.ensureSegmentsDir) :=
  ⟨by decide, invalid_name_rejected "a/b" (by decide) (fun _ => none)
    CaptureManager.new none⟩

/-! ### Claim C2: the construction value of `drop_segment_translation` -/

/-- Claim C2 counterexample: `CaptureManager::new` initializes
`drop_segment_translation` to `true`, not `false`, so on a fresh session
(before any `start`) `translate_segment` silently drops the request: it
returns `Ok` with the manager unchanged — nothing is enqueued and nothing is
deferred in the pending map. -/
theorem fresh_manager_drops_translation :
    CaptureManager.new.dropSegmentTranslation = true ∧
    (CaptureManager.new.translateSegment "segment_a.wav" none).1 =
      .ok CaptureManager.new :=
  ⟨rfl, rfl⟩

/-- Claim C2 (amended): at construction `drop_segment_translation` is `true`,
so before the first `start_loopback_capture` every valid-name
`translate_segment` call silently returns `Ok` with the state unchanged;
`start` stores `false`, after which a valid-name call is accepted — it is
either enqueued (name lands in the queue's pending set) or deferred in the
pending-translation map. -/
theorem drop_translation_initialized_true :
    CaptureManager.new.dropSegmentTranslation = true ∧
    CaptureManager.new.start.dropSegmentTranslation = false ∧
    (∀ name provider, fileName name = some name →
      (CaptureManager.new.translateSegment name provider).1 =
        .ok CaptureManager.new) ∧
    (∀ (m : CaptureManager) name provider, fileName name = some name →
      m.dropSegmentTranslation = false →
      ∃ m2, (m.translateSegment name provider).1 = .ok m2 ∧
        (name ∈ m2.queue.pending ∨
          (pendingLookup m2.translationPending name).isSome)) := by
  refine ⟨rfl, rfl, ?_, ?_⟩
  · intro name provider hf
    unfold CaptureManager.translateSegment
    simp only [hf]
    rw [if_neg (show ¬ name ≠ name from fun h => h rfl)]
    rfl
  · intro m name provider hf hdrop
    unfold CaptureManager.translateSegment
    simp only [hf]
    rw [if_neg (show ¬ name ≠ name from fun h => h rfl)]
    split
    case isTrue hflag => rw [hdrop] at hflag; exact absurd hflag (by simp)
    case isFalse hflag =>
    split
    case isTrue hready =>
      refine ⟨_, rfl, Or.inl ?_⟩
      unfold enqueue_translation TranslationQueueState.push
      split
      case isTrue h => exact h
      case isFalse h => exact List.mem_cons_self _ _
    case isFalse hready =>
      refine ⟨_, rfl, Or.inr ?_⟩
      unfold pendingOrInsert
      split
      case isTrue h => exact h
      case isFalse h =>
        unfold pendingLookup at h ⊢
        simp only [Option.isSome_map] at h ⊢
        rw [List.find?_append]
        cases hfind : m.translationPending.find? (fun e => e.1 == name) with
        | some e => rw [hfind] at h; simp at h
        | none =>
          rw [List.find?_cons_of_pos _ (by simp)]
          simp

/-- Witness for `drop_translation_initialized_true` at a valid name. -/
theorem drop_translation_initialized_true_witness :
    fileName "segment_a.wav" = some "segment_a.wav" ∧
    CaptureManager.new.start.dropSegmentTranslation = false ∧
    ((CaptureManager.new.translateSegment "segment_a.wav" none).1 =
      .ok CaptureManager.new) ∧
    (∃ m2, (CaptureManager.new.start.translateSegment "segment_a.wav" none).1 =
      .ok m2 ∧ ("segment_a.wav" ∈ m2.queue.pending ∨
        (pendingLookup m2.translationPending "segment_a.wav").isSome)) :=
  ⟨by decide, rfl,
    drop_translation_initialized_true.2.2.1 "segment_a.wav" none (by decide),
    drop_translation_initialized_true.2.2.2 CaptureManager.new.start
      "segment_a.wav" none (by decide) rfl⟩

/-! ### Claim C1: a translation is only set when a transcript exists -/

theorem find?_append_some {α} {p : α → Bool} {l1 : List α} {x : α}
    (h : l1.find? p = some x) (l2 : List α) : (l1 ++ l2).find? p = some x := by
  rw [List.find?_append, h]
  rfl

/-- The segment named `n` exists and its transcript is set. -/
def SegOk (segs : List SegmentInfo) (n : String) : Prop :=
  ∃ s, findSegment segs n = some s ∧ s.transcript.isSome

theorem SegOk_append {segs : List SegmentInfo} {n : String} (l2 : List SegmentInfo)
    (h : SegOk segs n) : SegOk (segs ++ l2) n := by
  obtain ⟨s, hs, ht⟩ := h
  exact ⟨s, find?_append_some hs l2, ht⟩

/-- Effect of `updateFirst` (with a name-preserving update) on segment lookup:
the looked-up record is updated exactly when its name is the updated one. -/
theorem findSegment_updateFirst {f : SegmentInfo → SegmentInfo}
    (hf : ∀ x, (f x).name = x.name) (name : String) :
    ∀ (l : List SegmentInfo) (n : String),
      findSegment (updateFirst (fun s => s.name == name) f l) n =
        (findSegment l n).map (fun x => if x.name == name then f x else x) := by
  intro l
  induction l with
  | nil => intro n; rfl
  | cons y ys ih =>
    intro n
    unfold updateFirst findSegment
    by_cases hy : y.name = name
    · rw [if_pos (by simp [hy])]
      by_cases hn : y.name = n
      · rw [List.find?_cons_of_pos _ (by simp [hf, hn]),
          List.find?_cons_of_pos _ (by simp [hn])]
        simp [hy]
      · rw [List.find?_cons_of_neg _ (by simp [hf, hn]),
          List.find?_cons_of_neg _ (by simp [hn])]
        -- the tail is unmodified in this branch, and the map is the identity
        -- there: every element found for n in ys has name n ≠ name
        cases hfind : ys.find? (fun s => s.name == n) with
        | none => simp [hfind]
        | some x =>
          have hx := List.find?_some hfind
          simp only [beq_iff_eq] at hx
          have hne : ¬ x.name = name := by
            rw [hx, ← hy]; exact fun h => hn h.symm
          simp [hfind, hne]
    · rw [if_neg (by simp [hy])]
      by_cases hn : y.name = n
      · rw [List.find?_cons_of_pos _ (by simp [hn]),
          List.find?_cons_of_pos _ (by simp [hn])]
        simp [hy]
      · rw [List.find?_cons_of_neg _ (by simp [hn]),
          List.find?_cons_of_neg _ (by simp [hn])]
        exact ih n

theorem SegOk_updateFirst {f : SegmentInfo → SegmentInfo}
    (hf : ∀ x, (f x).name = x.name)
    (htr : ∀ x, x.transcript.isSome → (f x).transcript.isSome)
    {l : List SegmentInfo} {name n : String} (h : SegOk l n) :
    SegOk (updateFirst (fun s => s.name == name) f l) n := by
  obtain ⟨s, hs, ht⟩ := h
  rw [SegOk, findSegment_updateFirst hf name l n, hs]
  by_cases hsn : s.name = name
  · exact ⟨f s, by simp [hsn], htr s ht⟩
  · exact ⟨s, by simp [hsn], ht⟩

theorem isSome_updateFirst {f : SegmentInfo → SegmentInfo}
    (hf : ∀ x, (f x).name = x.name) {l : List SegmentInfo} {name n : String}
    (h : (findSegment l n).isSome) :
    (findSegment (updateFirst (fun s => s.name == name) f l) n).isSome := by
  rw [findSegment_updateFirst hf name l n]
  obtain ⟨x, hx⟩ := Option.isSome_iff_exists.mp h
  rw [hx]
  rfl

/-- Membership in an updated list: either an untouched old element or the image
of the first match. -/
theorem mem_updateFirst {p : SegmentInfo → Bool} {f : SegmentInfo → SegmentInfo} :
    ∀ {l : List SegmentInfo} {y : SegmentInfo}, y ∈ updateFirst p f l →
      y ∈ l ∨ ∃ x, l.find? p = some x ∧ y = f x := by
  intro l
  induction l with
  | nil => intro y hy; simp [updateFirst] at hy
  | cons z zs ih =>
    intro y hy
    unfold updateFirst at hy
    split at hy
    case isTrue hz =>
      rcases List.mem_cons.mp hy with rfl | hy2
      · exact Or.inr ⟨z, List.find?_cons_of_pos _ hz, rfl⟩
      · exact Or.inl (List.mem_cons_of_mem _ hy2)
    case isFalse hz =>
      rcases List.mem_cons.mp hy with rfl | hy2
      · exact Or.inl (List.mem_cons_self _ _)
      · rcases ih hy2 with hmem | ⟨x, hx, rfl⟩
        · exact Or.inl (List.mem_cons_of_mem _ hmem)
        · exact Or.inr ⟨x, by rw [List.find?_cons_of_neg _ hz]; exact hx, rfl⟩

/-- The record invariant: a set translation implies a set transcript. -/
def Inv1 (segs : List SegmentInfo) : Prop :=
  ∀ s ∈ segs, s.translation.isSome → s.transcript.isSome

theorem inv1_applyTranslation {l : List SegmentInfo} {name : String}
    {t : String} {e : Nat} {now : String} (hinv : Inv1 l) (hok : SegOk l name) :
    Inv1 (applyTranslationSegs l name (some t) e now) := by
  intro s hs
  unfold applyTranslationSegs at hs
  rcases mem_updateFirst hs with hmem | ⟨x, hx, rfl⟩
  · exact hinv s hmem
  · intro _
    obtain ⟨x2, hx2, ht2⟩ := hok
    rw [findSegment] at hx2
    rw [hx2] at hx
    injection hx with hx
    subst hx
    exact ht2

theorem inv1_applyTranscript {l : List SegmentInfo} {name : String}
    {t : String} {e : Nat} {now : String} (hinv : Inv1 l) :
    Inv1 (applyTranscriptSegs l name (some t) e now) := by
  intro s hs
  unfold applyTranscriptSegs at hs
  rcases mem_updateFirst hs with hmem | ⟨x, hx, rfl⟩
  · exact hinv s hmem
  · intro _
    simp

/-- Applying a batch of translations keeps `Inv1`, keeps `SegOk`, and keeps
segment existence. -/
theorem fold_applyTranslation (e : Nat) (now : String) (g : String → String) :
    ∀ (names : List String) (segs : List SegmentInfo), Inv1 segs →
      (∀ n ∈ names, SegOk segs n) →
      Inv1 (names.foldl
        (fun ss n => applyTranslationSegs ss n (some (g n)) e now) segs) ∧
      (∀ n', SegOk segs n' → SegOk (names.foldl
        (fun ss n => applyTranslationSegs ss n (some (g n)) e now) segs) n') ∧
      (∀ n', (findSegment segs n').isSome → (findSegment (names.foldl
        (fun ss n => applyTranslationSegs ss n (some (g n)) e now) segs) n').isSome) := by
  intro names
  induction names with
  | nil => intro segs h1 _; exact ⟨h1, fun _ h => h, fun _ h => h⟩
  | cons n ns ih =>
    intro segs h1 hok
    rw [List.foldl_cons]
    have hokn : SegOk segs n := hok n (List.mem_cons_self _ _)
    have h1' : Inv1 (applyTranslationSegs segs n (some (g n)) e now) :=
      inv1_applyTranslation h1 hokn
    have hpres : ∀ n', SegOk segs n' →
        SegOk (applyTranslationSegs segs n (some (g n)) e now) n' := by
      intro n' h
      exact SegOk_updateFirst (by intro x; rfl) (by intro x hx; exact hx) h
    have hsome : ∀ n', (findSegment segs n').isSome →
        (findSegment (applyTranslationSegs segs n (some (g n)) e now) n').isSome := by
      intro n' h
      exact isSome_updateFirst (by intro x; rfl) h
    obtain ⟨r1, r2, r3⟩ := ih (applyTranslationSegs segs n (some (g n)) e now) h1'
      (fun n2 hn2 => hpres n2 (hok n2 (List.mem_cons_of_mem _ hn2)))
    exact ⟨r1, fun n' h => r2 n' (hpres n' h), fun n' h => r3 n' (hsome n' h)⟩

/-- The full safety invariant of the manager model. -/
def ManagerInv (st : CaptureManager × SegmentTranslationHistory) : Prop :=
  Inv1 st.1.segments ∧
  (∀ r ∈ st.1.queue.items, SegOk st.1.segments r.name) ∧
  (st.2.generation = st.1.translationGeneration →
    ∀ it ∈ st.2.previousBatch, SegOk st.1.segments it.1) ∧
  (∀ t ∈ st.1.transcribeTasks, t.2 = st.1.transcriptionGeneration →
    (findSegment st.1.segments t.1).isSome) ∧
  (∀ t ∈ st.1.transcribeTasks, t.2 ≤ st.1.transcriptionGeneration) ∧
  st.2.generation ≤ st.1.translationGeneration

theorem initManager_inv : ManagerInv initManager := by
  refine ⟨?_, ?_, ?_, ?_, ?_, ?_⟩ <;> simp [initManager, CaptureManager.new, emptyQueue, Inv1]

theorem mem_push_items {q : TranslationQueueState} {r r' : TranslationRequest}
    (h : r' ∈ (q.push r).items) : r' = r ∨ r' ∈ q.items := by
  unfold TranslationQueueState.push at h
  split at h
  · exact Or.inr h
  · rcases List.mem_cons.mp ((insertByOrder_perm r q.items).mem_iff.mp h) with rfl | hmem
    · exact Or.inl rfl
    · exact Or.inr hmem

theorem pop_facts {q : TranslationQueueState} {first : TranslationRequest}
    {q2 : TranslationQueueState} (hpop : q.pop = some (first, q2)) :
    first ∈ q.items ∧ ∀ r ∈ q2.items, r ∈ q.items := by
  unfold TranslationQueueState.pop at hpop
  cases hitems : q.items with
  | nil => rw [hitems] at hpop; exact absurd hpop (by simp)
  | cons r rest =>
    rw [hitems] at hpop
    simp only [Option.some.injEq, Prod.mk.injEq] at hpop
    obtain ⟨hfr, hq2⟩ := hpop
    subst hfr
    refine ⟨List.mem_cons_self _ _, ?_⟩
    intro r2 hr2
    rw [← hq2] at hr2
    exact List.mem_cons_of_mem _ hr2

theorem segOk_of_bind_isSome {segs : List SegmentInfo} {n : String}
    (h : ((findSegment segs n).bind (fun s => s.transcript)).isSome) :
    SegOk segs n := by
  cases hfs : findSegment segs n with
  | none => rw [hfs] at h; simp at h
  | some s => rw [hfs] at h; exact ⟨s, hfs, h⟩

theorem findSegment_isSome_append {segs : List SegmentInfo} {n : String}
    (l2 : List SegmentInfo) (h : (findSegment segs n).isSome) :
    (findSegment (segs ++ l2) n).isSome := by
  obtain ⟨x, hx⟩ := Option.isSome_iff_exists.mp h
  unfold findSegment at hx ⊢
  rw [List.find?_append, hx]
  rfl

theorem segOk_applyTranscript {l : List SegmentInfo} {name n : String}
    {tr : String} {e : Nat} {now : String} (h : SegOk l n) :
    SegOk (applyTranscriptSegs l name (some tr) e now) n := by
  unfold applyTranscriptSegs
  refine SegOk_updateFirst ?_ ?_ h
  · intro x
    rfl
  · intro x hx
    rfl

theorem isSome_applyTranscript {l : List SegmentInfo} {name n : String}
    {tr : Option String} {e : Nat} {now : String}
    (h : (findSegment l n).isSome) :
    (findSegment (applyTranscriptSegs l name tr e now) n).isSome := by
  unfold applyTranscriptSegs
  refine isSome_updateFirst ?_ h
  intro x
  rfl

theorem segOk_applyTranscript_self {l : List SegmentInfo} {name : String}
    {tr : String} {e : Nat} {now : String} (h : (findSegment l name).isSome) :
    SegOk (applyTranscriptSegs l name (some tr) e now) name := by
  obtain ⟨x, hx⟩ := Option.isSome_iff_exists.mp h
  unfold findSegment at hx
  have hxs : x.name = name := by
    have := List.find?_some hx
    simpa using this
  unfold applyTranscriptSegs
  refine ⟨{ x with transcript := some tr, transcriptAt := some now, transcriptMs := some e }, ?_, rfl⟩
  have heq := @findSegment_updateFirst
    (fun s => { s with transcript := some tr, transcriptAt := some now, transcriptMs := some e })
    (fun _ => rfl) name l name
  rw [heq]
  unfold findSegment
  rw [hx]
  simp [hxs]

theorem mem_dedupFold {y : String × String} :
    ∀ (cur ctx : List (String × String)),
      y ∈ cur.foldl (fun acc it =>
        if acc.any (fun e => e.1 == it.1) then acc else acc ++ [it]) ctx →
      y ∈ ctx ∨ y ∈ cur := by
  intro cur
  induction cur with
  | nil => intro ctx h; exact Or.inl h
  | cons i cur ih =>
    intro ctx h
    rw [List.foldl_cons] at h
    rcases ih _ h with hctx | hcur
    · split at hctx
      · exact Or.inl hctx
      · rcases List.mem_append.mp hctx with h1 | h1
        · exact Or.inl h1
        · rcases List.mem_singleton.mp h1 with rfl
          exact Or.inr (List.mem_cons_self _ _)
    · exact Or.inr (List.mem_cons_of_mem _ hcur)

theorem mem_dedupAppend {y : String × String} (ctx cur : List (String × String))
    (h : y ∈ dedupAppend ctx cur) : y ∈ ctx ∨ y ∈ cur :=
  mem_dedupFold cur ctx h

theorem segOk_of_currentItem {segs : List SegmentInfo}
    {reqs : List TranslationRequest} {act : Nat} {it : String × String}
    (hit : it ∈ reqs.filterMap (fun r =>
      if r.generation ≠ act then none
      else ((findSegment segs r.name).bind (fun s => s.transcript)).map
        (fun tt => (r.name, tt)))) :
    SegOk segs it.1 := by
  rcases List.mem_filterMap.mp hit with ⟨r, _, hfr⟩
  split at hfr
  · exact absurd hfr (by simp)
  · rcases Option.map_eq_some'.mp hfr with ⟨tt, htt, hteq⟩
    subst hteq
    exact segOk_of_bind_isSome (by rw [htt]; rfl)

theorem segOk_allNames {segs : List SegmentInfo}
    {reqs : List TranslationRequest} {act : Nat}
    {pb : List (String × String)} (k : Nat)
    (hpb : ∀ it ∈ pb, SegOk segs it.1) :
    ∀ n ∈ (dedupAppend (pb.drop k) (reqs.filterMap (fun r =>
      if r.generation ≠ act then none
      else ((findSegment segs r.name).bind (fun s => s.transcript)).map
        (fun tt => (r.name, tt))))).map (fun it => it.1), SegOk segs n := by
  intro n hn
  rcases List.mem_map.mp hn with ⟨it, hit, rfl⟩
  rcases mem_dedupAppend _ _ hit with hc | hc
  · exact hpb it (List.drop_subset _ _ hc)
  · exact segOk_of_currentItem hc

theorem segOk_newBatch {segs : List SegmentInfo}
    {reqs : List TranslationRequest} {act : Nat} (k : Nat)
    (f2 : String × String → String) :
    ∀ it2 ∈ ((reqs.filterMap (fun r =>
      if r.generation ≠ act then none
      else ((findSegment segs r.name).bind (fun s => s.transcript)).map
        (fun tt => (r.name, tt)))).map (fun it => (it.1, f2 it))).drop k,
      SegOk segs it2.1 := by
  intro it2 hit2
  rcases List.mem_map.mp (List.drop_subset _ _ hit2) with ⟨it, hit, rfl⟩
  show SegOk segs it.1
  exact segOk_of_currentItem hit

/-- After applying a batch of translations whose names all reference
transcript-bearing segments, the full invariant holds with an arbitrary
well-referenced new history batch. -/
theorem inv_after_fold (m : CaptureManager) (e : Nat) (now : String)
    (g : String → String) (allNames : List String) (prov : Option String)
    (nb : List (String × String))
    (h1 : Inv1 m.segments)
    (hq : ∀ r ∈ m.queue.items, SegOk m.segments r.name)
    (h4 : ∀ t ∈ m.transcribeTasks, t.2 = m.transcriptionGeneration →
      (findSegment m.segments t.1).isSome)
    (h5 : ∀ t ∈ m.transcribeTasks, t.2 ≤ m.transcriptionGeneration)
    (hnames : ∀ n ∈ allNames, SegOk m.segments n)
    (hnb : ∀ it ∈ nb, SegOk m.segments it.1) :
    ManagerInv
      ({ m with segments := allNames.foldl (fun segs n =>
          applyTranslationSegs segs n (some (g n)) e now) m.segments },
        { generation := m.translationGeneration, provider := prov,
          previousBatch := nb }) := by
  obtain ⟨hA, hB, hC⟩ := fold_applyTranslation e now g allNames m.segments h1 hnames
  refine ⟨hA, ?_, ?_, ?_, h5, le_refl _⟩
  · intro r hr
    exact hB r.name (hq r hr)
  · intro _ it hit
    exact hB it.1 (hnb it hit)
  · intro t ht hg
    exact hC t.1 (h4 t ht hg)

/-- The history entering a provider run: reset on generation or provider
change.  Every remembered batch item still references a transcript-bearing
segment. -/
theorem hist_ite_facts (hist : SegmentTranslationHistory) (act : Nat)
    (prov : Option String) (segs : List SegmentInfo)
    (hh : hist.generation = act → ∀ it ∈ hist.previousBatch, SegOk segs it.1) :
    ∀ it ∈ (if hist.generation ≠ act ∨ hist.provider ≠ prov then
      ({ generation := act, provider := prov, previousBatch := [] } :
        SegmentTranslationHistory) else hist).previousBatch,
      SegOk segs it.1 := by
  split
  case isTrue h => intro it hit; simp at hit
  case isFalse h =>
    push_neg at h
    exact hh h.1

theorem hist_ite_gen (hist : SegmentTranslationHistory) (act : Nat)
    (prov : Option String) :
    (if hist.generation ≠ act ∨ hist.provider ≠ prov then
      ({ generation := act, provider := prov, previousBatch := [] } :
        SegmentTranslationHistory) else hist).generation = act := by
  split
  case isTrue h => rfl
  case isFalse h =>
    push_neg at h
    exact h.1

/-- A `translate_segment_provider_group` run on a singleton batch preserves
the invariant. -/
theorem providerGroup_inv (m : CaptureManager)
    (hist : SegmentTranslationHistory) (first : TranslationRequest)
    (resp : Except String (List (String × BatchResult))) (e : Nat)
    (now : String)
    (h1 : Inv1 m.segments)
    (hq : ∀ r ∈ m.queue.items, SegOk m.segments r.name)
    (h3 : hist.generation = m.translationGeneration →
      ∀ it ∈ hist.previousBatch, SegOk m.segments it.1)
    (h4 : ∀ t ∈ m.transcribeTasks, t.2 = m.transcriptionGeneration →
      (findSegment m.segments t.1).isSome)
    (h5 : ∀ t ∈ m.transcribeTasks, t.2 ≤ m.transcriptionGeneration)
    (h6 : hist.generation ≤ m.translationGeneration) :
    ManagerInv (providerGroup m hist [first] resp e now) := by
  unfold providerGroup
  dsimp only
  split
  case isTrue hemp => simp at hemp
  case isFalse hemp =>
  split
  case isTrue hcur =>
    exact ⟨h1, hq, fun _ => hist_ite_facts _ _ _ _ h3, h4, h5,
      le_of_eq (hist_ite_gen _ _ _)⟩
  case isFalse hcur =>
  split
  case h_1 translations heq =>
    split
    case isTrue hstale => exact absurd rfl hstale
    case isFalse hstale =>
      exact inv_after_fold m e now _ _ _ _ h1 hq h4 h5
        (segOk_allNames _ (hist_ite_facts _ _ _ _ h3)) (segOk_newBatch _ _)
  case h_2 err heq =>
    split
    case isTrue hstale => exact absurd rfl hstale
    case isFalse hstale =>
      exact inv_after_fold m e now _ _ _ _ h1 hq h4 h5
        (segOk_allNames _ (hist_ite_facts _ _ _ _ h3)) (by simp)

/-- Every manager stimulus preserves the invariant. -/
theorem stepManager_inv (st : CaptureManager × SegmentTranslationHistory)
    (a : ManagerAct) (hinv : ManagerInv st) : ManagerInv (stepManager st a) := by
  obtain ⟨m, h⟩ := st
  obtain ⟨h1, h2, h3, h4, h5, h6⟩ := hinv
  dsimp only at h1 h2 h3 h4 h5 h6
  cases a with
  | start => exact ⟨h1, h2, h3, h4, h5, h6⟩
  | translateSegment name p =>
    simp only [stepManager]
    unfold CaptureManager.translateSegment
    cases hfn : fileName name with
    | none => exact ⟨h1, h2, h3, h4, h5, h6⟩
    | some safe =>
      dsimp only
      by_cases hsn : safe ≠ name
      · rw [if_pos hsn]
        exact ⟨h1, h2, h3, h4, h5, h6⟩
      · rw [if_neg hsn]
        by_cases hdrop : m.dropSegmentTranslation = true
        · rw [if_pos hdrop]
          exact ⟨h1, h2, h3, h4, h5, h6⟩
        · rw [if_neg hdrop]
          by_cases hready :
              ((findSegment m.segments name).bind (fun s => s.transcript)).isSome = true
          · rw [if_pos hready]
            refine ⟨h1, ?_, h3, h4, h5, h6⟩
            intro r hr
            rcases mem_push_items hr with rfl | hmem
            · exact segOk_of_bind_isSome hready
            · exact h2 r hmem
          · rw [if_neg hready]
            exact ⟨h1, h2, h3, h4, h5, h6⟩
  | clearTaskQueues =>
    simp only [stepManager]
    refine ⟨h1, ?_, ?_, ?_, ?_, ?_⟩
    · intro r hr
      simp [CaptureManager.clearTaskQueues, TranslationQueueState.clear] at hr
    · intro hg
      simp only [CaptureManager.clearTaskQueues] at hg
      exact absurd hg (by omega)
    · intro t ht hg
      simp only [CaptureManager.clearTaskQueues] at hg
      have := h5 t ht
      exact absurd hg (by omega)
    · intro t ht
      simp only [CaptureManager.clearTaskQueues]
      have := h5 t ht
      omega
    · simp only [CaptureManager.clearTaskQueues]
      omega
  | clearAll =>
    simp only [stepManager]
    refine ⟨?_, ?_, ?_, ?_, ?_, ?_⟩
    · intro s hs
      simp [CaptureManager.clearAll, CaptureManager.clearTaskQueues] at hs
    · intro r hr
      simp [CaptureManager.clearAll, CaptureManager.clearTaskQueues,
        TranslationQueueState.clear] at hr
    · intro hg
      simp only [CaptureManager.clearAll, CaptureManager.clearTaskQueues] at hg
      exact absurd hg (by omega)
    · intro t ht hg
      simp only [CaptureManager.clearAll, CaptureManager.clearTaskQueues] at hg
      have := h5 t ht
      exact absurd hg (by omega)
    · intro t ht
      simp only [CaptureManager.clearAll, CaptureManager.clearTaskQueues]
      have := h5 t ht
      omega
    · simp only [CaptureManager.clearAll, CaptureManager.clearTaskQueues]
      omega
  | pushSegment w =>
    simp only [stepManager]
    refine ⟨?_, ?_, ?_, ?_, ?_, h6⟩
    · intro s hs
      rcases List.mem_append.mp hs with hs | hs
      · exact h1 s hs
      · rcases List.mem_singleton.mp hs with rfl
        intro htr
        simp [Writer.SegmentWriter.finalize] at htr
    · intro r hr
      exact SegOk_append _ (h2 r hr)
    · intro hg it hit
      exact SegOk_append _ (h3 hg it hit)
    · intro t ht hg
      rcases List.mem_append.mp ht with ht | ht
      · exact findSegment_isSome_append _ (h4 t ht hg)
      · rcases List.mem_singleton.mp ht with rfl
        cases hfs : findSegment m.segments w.finalize.name with
        | some x => exact findSegment_isSome_append _ (by rw [hfs]; rfl)
        | none =>
          show (findSegment (m.segments ++ [w.finalize]) w.finalize.name).isSome = true
          unfold findSegment at hfs ⊢
          rw [List.find?_append, hfs]
          simp
    · intro t ht
      rcases List.mem_append.mp ht with ht | ht
      · exact h5 t ht
      · rcases List.mem_singleton.mp ht with rfl
        exact le_refl _
  | transcribeStep asr cfg e t =>
    simp only [stepManager]
    unfold CaptureManager.transcribeStep
    cases htasks : m.transcribeTasks with
    | nil => exact ⟨h1, h2, h3, h4, h5, h6⟩
    | cons hd rest =>
      obtain ⟨name, gen⟩ := hd
      dsimp only
      have hrest : ∀ t' ∈ rest, t' ∈ m.transcribeTasks := by
        intro t' ht'
        rw [htasks]
        exact List.mem_cons_of_mem _ ht'
      split
      case isTrue hgen =>
        exact ⟨h1, h2, h3, fun t' ht' hg => h4 t' (hrest t' ht') hg,
          fun t' ht' => h5 t' (hrest t' ht'), h6⟩
      case isFalse hgen =>
        have hgeq : gen = m.transcriptionGeneration := not_not.mp hgen
        have hself : (findSegment m.segments name).isSome :=
          h4 (name, gen) (by rw [htasks]; exact List.mem_cons_self _ _) hgeq
        split
        case isTrue hdrop =>
          exact ⟨inv1_applyTranscript h1,
            fun r hr => segOk_applyTranscript (h2 r hr),
            fun hg it hit => segOk_applyTranscript (h3 hg it hit),
            fun t' ht' hg => isSome_applyTranscript (h4 t' (hrest t' ht') hg),
            fun t' ht' => h5 t' (hrest t' ht'), h6⟩
        case isFalse hdrop =>
          split
          case h_1 x heq =>
            exact ⟨inv1_applyTranscript h1,
              fun r hr => segOk_applyTranscript (h2 r hr),
              fun hg it hit => segOk_applyTranscript (h3 hg it hit),
              fun t' ht' hg => isSome_applyTranscript (h4 t' (hrest t' ht') hg),
              fun t' ht' => h5 t' (hrest t' ht'), h6⟩
          case h_2 provider pending2 heq =>
            refine ⟨inv1_applyTranscript h1, ?_,
              fun hg it hit => segOk_applyTranscript (h3 hg it hit),
              fun t' ht' hg => isSome_applyTranscript (h4 t' (hrest t' ht') hg),
              fun t' ht' => h5 t' (hrest t' ht'), h6⟩
            intro r hr
            rcases mem_push_items hr with rfl | hmem
            · exact segOk_applyTranscript_self hself
            · exact segOk_applyTranscript (h2 r hmem)
  | workerStep resp e t =>
    simp only [stepManager]
    unfold CaptureManager.workerStep
    cases hpop : m.queue.pop with
    | none => exact ⟨h1, h2, h3, h4, h5, h6⟩
    | some pr =>
      obtain ⟨first, q2⟩ := pr
      obtain ⟨hmemf, hsub⟩ := pop_facts hpop
      dsimp only
      split
      case isTrue hgen =>
        exact ⟨h1, fun r hr => h2 r (hsub r hr), h3, h4, h5, h6⟩
      case isFalse hgen =>
        exact providerGroup_inv _ h first resp e t h1
          (fun r hr => h2 r (hsub r hr)) h3 h4 h5 h6

theorem runManager_inv (acts : List ManagerAct) :
    ∀ st, ManagerInv st → ManagerInv (runManager st acts) := by
  induction acts with
  | nil => intro st h; exact h
  | cons a rest ih =>
    intro st h
    exact ih _ (stepManager_inv st a h)

/-- The counterexample trace: the ASR hallucination label sanitizes to the
empty transcript, auto-translate still enqueues, and the worker stores the
LLM's translation. -/
def actsC1 : List ManagerAct :=
  [.start,
   .pushSegment ⟨"seg1", "t0", 16000, 1, 16000⟩,
   .transcribeStep (.ok "[音楽]") {} 5 "t1",
   .translateSegment "seg1" none,
   .workerStep (.ok [("seg1", ⟨"nice translation", none⟩)]) 7 "t2"]

/-- Claim C1 counterexample: after ASR returns the noise label `"[音楽]"` the
sanitizer stores the empty transcript `Some("")`; `translate_segment` only
checks `transcript.is_some()`, so the request is enqueued and the worker
applies the LLM's translation — the final record has an empty transcript and
a set translation, contradicting both the non-emptiness requirement and the
claim that such a segment is never translated. -/
theorem empty_transcript_translated :
    ((runManager initManager actsC1).1.segments.map
      (fun s => (s.transcript, s.translation))) =
      [(some "", some "nice translation")] := by decide

/-- Claim C1 (amended): in every reachable manager state, a segment record
with a set `translation` also has a set `transcript` — but the transcript may
be the empty string: readiness is `transcript.is_some()`, so a segment whose
ASR output sanitizes to `""` can still receive a translation. -/
theorem translated_segment_has_transcript (acts : List ManagerAct)
    (s : SegmentInfo) (hs : s ∈ (runManager initManager acts).1.segments)
    (ht : s.translation.isSome) : s.transcript.isSome :=
  (runManager_inv acts initManager initManager_inv).1 s hs ht

/-- The segment record produced by the counterexample trace. -/
def segC1 : SegmentInfo :=
  { name := "seg1"
    durationMs := 1000
    createdAt := "t0"
    sampleRate := 16000
    channels := 1
    transcript := some ""
    translation := some "nice translation"
    transcriptAt := some "t1"
    translationAt := some "t2"
    transcriptMs := some 5
    translationMs := some 7
    speakerId := none
    speakerChanged := none
    speakerSimilarity := none
    speakerSwitchesMs := none }

/-- Witness for `translated_segment_has_transcript` on the concrete trace. -/
theorem translated_segment_has_transcript_witness :
    segC1 ∈ (runManager initManager actsC1).1.segments ∧
    segC1.translation.isSome ∧ segC1.transcript.isSome :=
  ⟨by decide, by decide,
    translated_segment_has_transcript actsC1 segC1 (by decide) (by decide)⟩

end Manager

namespace Worker

/-! ### Claim C3: generation cancellation of in-flight translations

Interleaving model of `run_translation_worker` (`audio/manager.rs` lines
1562-1599) against `clear_task_queues` (lines 677-691), at the source's
hard-coded batch size 1.  Each atomic read of `translation_generation` is a
separate step; the LLM call of `translate_segment_provider_group` runs
between `startCall` and `llmDone` without holding any lock.  A request is
modelled by its generation tag (`TranslationRequest::generation`); an
emitted `segment_translated` event records the tag, the generation observed
by the post-call check that admitted it, and the generation current when the
event was actually emitted. -/

/-- One `segment_translated` emission (`apply_translation`,
`audio/manager.rs` lines 1677-1703). -/
structure WEvent where
  tag : Nat
  checkedGen : Nat
  genAtEmit : Nat
  deriving Repr, DecidableEq

/-- The worker's control point within one loop iteration. -/
inductive WPhase where
  | idle
  | popped (tag : Nat)
  | inCall (tag : Nat)
  | checked (tag : Nat)
  | emitting (tag : Nat) (checkedGen : Nat)
  deriving Repr, DecidableEq

structure WState where
  gen : Nat
  queue : List Nat
  phase : WPhase
  events : List WEvent
  deriving Repr, DecidableEq

/-- The interleaved steps: `enqueue` is `enqueue_translation` (tags with the
current generation); `clear` is `clear_task_queues` (generation bump plus
queue clear); `pop` is `queue.pop()`; `startCall` collapses the worker's
dequeue generation check, `collect_translation_batch`'s re-check and
`translate_segment_provider_group`'s fresh load plus per-request filter —
all of which abort unless the tag equals the generation read at that moment
— and starts the LLM call; `llmDone` is the call returning; `postCheck` is
the `translation_generation.load() != active_generation` guard after the
call; `emit` is the `apply_translation` loop with its `segment_translated`
emission. -/
inductive WAct where
  | enqueue
  | clear
  | pop
  | startCall
  | llmDone
  | postCheck
  | emit
  deriving Repr, DecidableEq

def stepWorker (s : WState) : WAct → WState
  | .enqueue => { s with queue := s.queue ++ [s.gen] }
  | .clear => { s with gen := s.gen + 1, queue := [] }
  | .pop =>
    match s.phase, s.queue with
    | .idle, t :: rest => { s with phase := .popped t, queue := rest }
    | _, _ => s
  | .startCall =>
    match s.phase with
    | .popped t =>
      if t = s.gen then { s with phase := .inCall t }
      else { s with phase := .idle }
    | _ => s
  | .llmDone =>
    match s.phase with
    | .inCall t => { s with phase := .checked t }
    | _ => s
  | .postCheck =>
    match s.phase with
    | .checked t =>
      if s.gen ≠ t then { s with phase := .idle }
      else { s with phase := .emitting t s.gen }
    | _ => s
  | .emit =>
    match s.phase with
    | .emitting t c =>
      { s with phase := .idle, events := s.events ++ [⟨t, c, s.gen⟩] }
    | _ => s

def initWorker : WState := { gen := 0, queue := [], phase := .idle, events := [] }

def runWorker (s : WState) : List WAct → WState
  | [] => s
  | a :: rest => runWorker (stepWorker s a) rest

/-- Claim C3 counterexample: a request of generation 0 passes the post-call
generation check, `clear_task_queues` then bumps the generation to 1, and
the already-admitted apply loop still emits — a `segment_translated` event
tagged with the pre-clear generation 0 is emitted after the clear
(`genAtEmit = 1`).  The check-then-emit window of
`translate_segment_provider_group` is not atomic with the clear. -/
theorem stale_generation_emitted :
    (runWorker initWorker
      [.enqueue, .pop, .startCall, .llmDone, .postCheck, .clear, .emit]).events =
      [⟨0, 0, 1⟩] := by decide

/-- The cancellation discipline the worker actually maintains. -/
def WInv (s : WState) : Prop :=
  (∀ e ∈ s.events, e.checkedGen = e.tag) ∧
  (∀ e ∈ s.events, e.tag ≤ e.genAtEmit) ∧
  (∀ t c, s.phase = .emitting t c → c = t ∧ t ≤ s.gen) ∧
  (∀ t ∈ s.queue, t ≤ s.gen) ∧
  (∀ t, (s.phase = .popped t ∨ s.phase = .inCall t ∨ s.phase = .checked t) →
    t ≤ s.gen)

theorem stepWorker_winv (s : WState) (a : WAct) (h : WInv s) :
    WInv (stepWorker s a) := by
  obtain ⟨g, q, ph, ev⟩ := s
  obtain ⟨h1, h2, h3, h4, h5⟩ := h
  dsimp only at h1 h2 h3 h4 h5
  cases a with
  | enqueue =>
    refine ⟨h1, h2, h3, ?_, h5⟩
    intro t ht
    dsimp only [stepWorker] at ht
    rcases List.mem_append.mp ht with ht | ht
    · exact h4 t ht
    · rcases List.mem_singleton.mp ht with rfl
      exact le_refl _
  | clear =>
    refine ⟨h1, h2, ?_, ?_, ?_⟩
    · intro t c hp
      obtain ⟨hc, hle⟩ := h3 t c hp
      exact ⟨hc, le_trans hle (Nat.le_succ _)⟩
    · intro t ht
      dsimp only [stepWorker] at ht
      simp at ht
    · intro t hp
      exact le_trans (h5 t hp) (Nat.le_succ _)
  | pop =>
    cases ph with
    | idle =>
      cases q with
      | nil => exact ⟨h1, h2, h3, h4, h5⟩
      | cons t rest =>
        dsimp only [stepWorker]
        refine ⟨h1, h2, ?_, ?_, ?_⟩
        · intro t' c hp
          exact absurd hp (by simp)
        · intro t' ht'
          exact h4 t' (List.mem_cons_of_mem _ ht')
        · intro t' hp
          rcases hp with hp | hp | hp
          · injection hp with hh
            subst hh
            exact h4 _ (List.mem_cons_self _ _)
          · exact absurd hp (by simp)
          · exact absurd hp (by simp)
    | popped t => exact ⟨h1, h2, h3, h4, h5⟩
    | inCall t => exact ⟨h1, h2, h3, h4, h5⟩
    | checked t => exact ⟨h1, h2, h3, h4, h5⟩
    | emitting t c => exact ⟨h1, h2, h3, h4, h5⟩
  | startCall =>
    cases ph with
    | popped t =>
      dsimp only [stepWorker]
      by_cases ht : t = g
      · rw [if_pos ht]
        refine ⟨h1, h2, ?_, h4, ?_⟩
        · intro t' c hp
          exact absurd hp (by simp)
        · intro t' hp
          rcases hp with hp | hp | hp
          · exact absurd hp (by simp)
          · injection hp with hh
            subst hh
            exact le_of_eq ht
          · exact absurd hp (by simp)
      · rw [if_neg ht]
        refine ⟨h1, h2, ?_, h4, ?_⟩
        · intro t' c hp
          exact absurd hp (by simp)
        · intro t' hp
          rcases hp with hp | hp | hp <;> exact absurd hp (by simp)
    | idle => exact ⟨h1, h2, h3, h4, h5⟩
    | inCall t => exact ⟨h1, h2, h3, h4, h5⟩
    | checked t => exact ⟨h1, h2, h3, h4, h5⟩
    | emitting t c => exact ⟨h1, h2, h3, h4, h5⟩
  | llmDone =>
    cases ph with
    | inCall t =>
      dsimp only [stepWorker]
      refine ⟨h1, h2, ?_, h4, ?_⟩
      · intro t' c hp
        exact absurd hp (by simp)
      · intro t' hp
        rcases hp with hp | hp | hp
        · exact absurd hp (by simp)
        · exact absurd hp (by simp)
        · injection hp with hh
          subst hh
          exact h5 _ (Or.inr (Or.inl rfl))
    | idle => exact ⟨h1, h2, h3, h4, h5⟩
    | popped t => exact ⟨h1, h2, h3, h4, h5⟩
    | checked t => exact ⟨h1, h2, h3, h4, h5⟩
    | emitting t c => exact ⟨h1, h2, h3, h4, h5⟩
  | postCheck =>
    cases ph with
    | checked t =>
      dsimp only [stepWorker]
      by_cases hg : g ≠ t
      · rw [if_pos hg]
        refine ⟨h1, h2, ?_, h4, ?_⟩
        · intro t' c hp
          exact absurd hp (by simp)
        · intro t' hp
          rcases hp with hp | hp | hp <;> exact absurd hp (by simp)
      · rw [if_neg hg]
        have hgt : g = t := not_not.mp hg
        refine ⟨h1, h2, ?_, h4, ?_⟩
        · intro t' c hp
          injection hp with ha hb
          subst ha
          subst hb
          exact ⟨hgt, le_of_eq hgt.symm⟩
        · intro t' hp
          rcases hp with hp | hp | hp <;> exact absurd hp (by simp)
    | idle => exact ⟨h1, h2, h3, h4, h5⟩
    | popped t => exact ⟨h1, h2, h3, h4, h5⟩
    | inCall t => exact ⟨h1, h2, h3, h4, h5⟩
    | emitting t c => exact ⟨h1, h2, h3, h4, h5⟩
  | emit =>
    cases ph with
    | emitting t c =>
      obtain ⟨hc, hle⟩ := h3 t c rfl
      dsimp only [stepWorker]
      refine ⟨?_, ?_, ?_, h4, ?_⟩
      · intro e he
        rcases List.mem_append.mp he with he | he
        · exact h1 e he
        · rcases List.mem_singleton.mp he with rfl
          exact hc
      · intro e he
        rcases List.mem_append.mp he with he | he
        · exact h2 e he
        · rcases List.mem_singleton.mp he with rfl
          exact hle
      · intro t' c' hp
        exact absurd hp (by simp)
      · intro t' hp
        rcases hp with hp | hp | hp <;> exact absurd hp (by simp)
    | idle => exact ⟨h1, h2, h3, h4, h5⟩
    | popped t => exact ⟨h1, h2, h3, h4, h5⟩
    | inCall t => exact ⟨h1, h2, h3, h4, h5⟩
    | checked t => exact ⟨h1, h2, h3, h4, h5⟩

theorem runWorker_winv (acts : List WAct) :
    ∀ s, WInv s → WInv (runWorker s acts) := by
  induction acts with
  | nil => intro s h; exact h
  | cons a rest ih =>
    intro s h
    exact ih _ (stepWorker_winv s a h)

theorem initWorker_winv : WInv initWorker := by
  refine ⟨?_, ?_, ?_, ?_, ?_⟩ <;> intro e he <;> simp [initWorker] at he ⊢

/-- Claim C3 (amended): cancellation is best effort, enforced at dequeue and
once more after the LLM call returns but before the apply loop: every
`segment_translated` event was admitted by a post-call check that saw its
request's generation as current (`checkedGen = tag`), and the generation
counter never runs behind an emitted tag.  A stale-generation event can
still appear when `clear_task_queues` lands between that check and the
emit, as the counterexample trace shows. -/
theorem translation_cancellation_best_effort (acts : List WAct)
    (e : WEvent) (he : e ∈ (runWorker initWorker acts).events) :
    e.checkedGen = e.tag ∧ e.tag ≤ e.genAtEmit :=
  ⟨(runWorker_winv acts initWorker initWorker_winv).1 e he,
    (runWorker_winv acts initWorker initWorker_winv).2.1 e he⟩

/-- Witness for `translation_cancellation_best_effort` on the
counterexample trace and its (stale) event. -/
theorem translation_cancellation_best_effort_witness :
    (⟨0, 0, 1⟩ : WEvent) ∈ (runWorker initWorker
      [.enqueue, .pop, .startCall, .llmDone, .postCheck, .clear, .emit]).events ∧
    ((0 : Nat) = 0 ∧ (0 : Nat) ≤ 1) :=
  ⟨by decide,
    translation_cancellation_best_effort
      [.enqueue, .pop, .startCall, .llmDone, .postCheck, .clear, .emit]
      ⟨0, 0, 1⟩ (by decide)⟩

end Worker

namespace Rag

/-! ### Claim C7: manifest idempotence of `index_sync_project`

Model of `RagService::index_sync_project` (`rag/service.rs` lines 131-222)
over the `MemoryStore` semantics (`rag/store.rs`): the manifest is a map
keyed by `(project_id, file_id)`, chunks are rows tagged with
`(project_id, file_id)`.  Filesystem scanning (`scan_project_files`) is
deterministic in the directory contents, so "no file on disk changed" means
both runs receive the same candidate list; chunking and embedding only
affect how many chunk rows a candidate produces, abstracted by `nchunks`.
`HashMap` building with insert (later duplicate keys overwrite) is modelled
by `insertAssoc`/`buildMap`; iteration order over a map does not affect any
of the report counters. -/

/-- `HashMap::insert`: replace the binding if the key is present, else
append. -/
def insertAssoc {κ β : Type} [DecidableEq κ] (m : List (κ × β)) (k : κ)
    (v : β) : List (κ × β) :=
  if m.any (fun e => e.1 = k) then
    m.map (fun e => if e.1 = k then (k, v) else e)
  else m ++ [(k, v)]

/-- `HashMap::get`. -/
def lookupAssoc {κ β : Type} [DecidableEq κ] (m : List (κ × β)) (k : κ) :
    Option β :=
  (m.find? (fun e => e.1 = k)).map (fun e => e.2)

/-- A `HashMap` built by inserting a list of pairs in order. -/
def buildMap {κ β : Type} [DecidableEq κ] (l : List (κ × β)) : List (κ × β) :=
  l.foldl (fun m e => insertAssoc m e.1 e.2) []

theorem mem_insertAssoc {κ β : Type} [DecidableEq κ] {m : List (κ × β)}
    {k : κ} {v : β} {e : κ × β} (h : e ∈ insertAssoc m k v) :
    (e ∈ m ∧ e.1 ≠ k) ∨ e = (k, v) := by
  unfold insertAssoc at h
  split at h
  case isTrue hany =>
    rcases List.mem_map.mp h with ⟨e0, he0, heq⟩
    by_cases h0 : e0.1 = k
    · rw [if_pos h0] at heq
      exact Or.inr heq.symm
    · rw [if_neg h0] at heq
      subst heq
      exact Or.inl ⟨he0, h0⟩
  case isFalse hany =>
    rcases List.mem_append.mp h with hm | hm
    · refine Or.inl ⟨hm, ?_⟩
      intro hk
      exact hany (List.any_eq_true.mpr ⟨e, hm, by simp [hk]⟩)
    · exact Or.inr (List.mem_singleton.mp hm)

theorem keys_replace {κ β : Type} [DecidableEq κ] (k : κ) (v : β) :
    ∀ m : List (κ × β),
      (m.map (fun e => if e.1 = k then (k, v) else e)).map (fun e => e.1) =
        m.map (fun e => e.1) := by
  intro m
  induction m with
  | nil => rfl
  | cons e0 m ih =>
    simp only [List.map_cons, ih]
    by_cases h0 : e0.1 = k
    · rw [if_pos h0, h0]
    · rw [if_neg h0]

theorem keys_insertAssoc_nodup {κ β : Type} [DecidableEq κ]
    {m : List (κ × β)} (k : κ) (v : β)
    (h : (m.map (fun e => e.1)).Nodup) :
    ((insertAssoc m k v).map (fun e => e.1)).Nodup := by
  unfold insertAssoc
  split
  case isTrue hany =>
    rw [keys_replace]
    exact h
  case isFalse hany =>
    rw [List.map_append]
    rw [List.nodup_append]
    refine ⟨h, List.nodup_singleton _, ?_⟩
    intro a ha hb
    simp only [List.map_cons, List.map_nil, List.mem_singleton] at hb
    subst hb
    rcases List.mem_map.mp ha with ⟨e, he, heq⟩
    exact hany (List.any_eq_true.mpr ⟨e, he, by simp [heq]⟩)

theorem mem_keys_insertAssoc {κ β : Type} [DecidableEq κ] {m : List (κ × β)}
    {k k' : κ} {v : β} :
    k' ∈ (insertAssoc m k v).map (fun e => e.1) ↔
      k' ∈ m.map (fun e => e.1) ∨ k' = k := by
  unfold insertAssoc
  split
  case isTrue hany =>
    rw [keys_replace]
    constructor
    · exact Or.inl
    · intro h
      rcases h with h | rfl
      · exact h
      · rcases List.any_eq_true.mp hany with ⟨e, he, hpe⟩
        simp only [decide_eq_true_eq] at hpe
        exact List.mem_map.mpr ⟨e, he, hpe⟩
  case isFalse hany =>
    rw [List.map_append]
    simp only [List.map_cons, List.map_nil]
    rw [List.mem_append, List.mem_singleton]

theorem find?_replace_self {κ β : Type} [DecidableEq κ] (k : κ) (v : β) :
    ∀ m : List (κ × β), m.any (fun e => e.1 = k) = true →
      (m.map (fun e => if e.1 = k then (k, v) else e)).find?
        (fun e => e.1 = k) = some (k, v) := by
  intro m
  induction m with
  | nil => intro h; simp at h
  | cons e0 m ih =>
    intro h
    simp only [List.map_cons]
    by_cases h0 : e0.1 = k
    · rw [if_pos h0]
      rw [List.find?_cons_of_pos _ (by simp)]
    · rw [if_neg h0]
      rw [List.find?_cons_of_neg _ (by simp [h0])]
      apply ih
      simp only [List.any_cons, Bool.or_eq_true, decide_eq_true_eq] at h
      rcases h with h | h
      · exact absurd h h0
      · exact h

theorem find?_replace_other {κ β : Type} [DecidableEq κ] (k k' : κ) (v : β)
    (hne : k' ≠ k) :
    ∀ m : List (κ × β),
      (m.map (fun e => if e.1 = k then (k, v) else e)).find?
        (fun e => e.1 = k') = m.find? (fun e => e.1 = k') := by
  intro m
  induction m with
  | nil => rfl
  | cons e0 m ih =>
    simp only [List.map_cons]
    by_cases h0 : e0.1 = k
    · rw [if_pos h0]
      rw [List.find?_cons_of_neg _
          (by simp only [decide_eq_true_eq]; exact fun h => hne h.symm),
        List.find?_cons_of_neg _
          (by simp only [decide_eq_true_eq]; rw [h0]; exact fun h => hne h.symm)]
      exact ih
    · rw [if_neg h0]
      by_cases h1 : e0.1 = k'
      · rw [List.find?_cons_of_pos _ (by simp [h1]),
          List.find?_cons_of_pos _ (by simp [h1])]
      · rw [List.find?_cons_of_neg _ (by simp [h1]),
          List.find?_cons_of_neg _ (by simp [h1])]
        exact ih

theorem lookupAssoc_insert_self {κ β : Type} [DecidableEq κ]
    (m : List (κ × β)) (k : κ) (v : β) :
    lookupAssoc (insertAssoc m k v) k = some v := by
  unfold lookupAssoc insertAssoc
  split
  case isTrue hany =>
    rw [find?_replace_self k v m hany]
    rfl
  case isFalse hany =>
    rw [List.find?_append]
    have hnone : m.find? (fun e => e.1 = k) = none := by
      rw [List.find?_eq_none]
      intro e he hpe
      simp only [decide_eq_true_eq] at hpe
      exact hany (List.any_eq_true.mpr ⟨e, he, by simp [hpe]⟩)
    rw [hnone]
    rw [List.find?_cons_of_pos _ (by simp)]
    rfl

theorem lookupAssoc_insert_other {κ β : Type} [DecidableEq κ]
    (m : List (κ × β)) (k k' : κ) (v : β) (hne : k' ≠ k) :
    lookupAssoc (insertAssoc m k v) k' = lookupAssoc m k' := by
  unfold lookupAssoc insertAssoc
  split
  case isTrue hany =>
    rw [find?_replace_other k k' v hne m]
  case isFalse hany =>
    rw [List.find?_append]
    rw [show ([(k, v)].find? (fun e => e.1 = k')) = none from by
      rw [List.find?_cons_of_neg _
        (by simp only [decide_eq_true_eq]; exact fun h => hne h.symm)]
      rfl]
    rw [Option.or_none]

theorem mem_buildMap_aux {κ β : Type} [DecidableEq κ] :
    ∀ (l acc : List (κ × β)) (e : κ × β),
      e ∈ l.foldl (fun m en => insertAssoc m en.1 en.2) acc →
      e ∈ acc ∨ e ∈ l := by
  intro l
  induction l with
  | nil =>
    intro acc e h
    exact Or.inl h
  | cons en l ih =>
    intro acc e h
    rw [List.foldl_cons] at h
    rcases ih _ e h with hacc | hl
    · rcases mem_insertAssoc hacc with ⟨hm, _⟩ | rfl
      · exact Or.inl hm
      · exact Or.inr (List.mem_cons_self _ _)
    · exact Or.inr (List.mem_cons_of_mem _ hl)

theorem mem_buildMap {κ β : Type} [DecidableEq κ] {l : List (κ × β)}
    {e : κ × β} (h : e ∈ buildMap l) : e ∈ l := by
  rcases mem_buildMap_aux l [] e h with h0 | h0
  · simp at h0
  · exact h0

theorem keys_buildMap_aux {κ β : Type} [DecidableEq κ] :
    ∀ (l acc : List (κ × β)),
      ((acc.map (fun e => e.1)).Nodup) →
      (((l.foldl (fun m en => insertAssoc m en.1 en.2) acc).map
        (fun e => e.1)).Nodup) := by
  intro l
  induction l with
  | nil => intro acc h; exact h
  | cons en l ih =>
    intro acc h
    rw [List.foldl_cons]
    exact ih _ (keys_insertAssoc_nodup _ _ h)

theorem keys_buildMap_nodup {κ β : Type} [DecidableEq κ]
    (l : List (κ × β)) : ((buildMap l).map (fun e => e.1)).Nodup :=
  keys_buildMap_aux l [] (by simp)

theorem mem_keys_buildMap_aux {κ β : Type} [DecidableEq κ] :
    ∀ (l acc : List (κ × β)) (k : κ),
      (k ∈ (l.foldl (fun m en => insertAssoc m en.1 en.2) acc).map
        (fun e => e.1)) ↔
      k ∈ acc.map (fun e => e.1) ∨ k ∈ l.map (fun e => e.1) := by
  intro l
  induction l with
  | nil =>
    intro acc k
    simp
  | cons en l ih =>
    intro acc k
    rw [List.foldl_cons, ih]
    rw [mem_keys_insertAssoc]
    simp only [List.map_cons, List.mem_cons]
    constructor
    · intro h
      rcases h with (h | h) | h
      · exact Or.inl h
      · exact Or.inr (Or.inl h)
      · exact Or.inr (Or.inr h)
    · intro h
      rcases h with h | h | h
      · exact Or.inl (Or.inl h)
      · exact Or.inl (Or.inr h)
      · exact Or.inr h

theorem mem_keys_buildMap {κ β : Type} [DecidableEq κ] (l : List (κ × β))
    (k : κ) : k ∈ (buildMap l).map (fun e => e.1) ↔ k ∈ l.map (fun e => e.1) := by
  rw [buildMap, mem_keys_buildMap_aux]
  simp

theorem buildMap_eq_self_aux {κ β : Type} [DecidableEq κ] :
    ∀ (l acc : List (κ × β)),
      (((acc ++ l).map (fun e => e.1)).Nodup) →
      l.foldl (fun m en => insertAssoc m en.1 en.2) acc = acc ++ l := by
  intro l
  induction l with
  | nil =>
    intro acc _
    simp
  | cons en l ih =>
    intro acc h
    rw [List.foldl_cons]
    have hnot : acc.any (fun e => e.1 = en.1) = false := by
      rw [List.any_eq_false]
      intro e he hpe
      simp only [decide_eq_true_eq] at hpe
      rw [List.map_append, List.nodup_append] at h
      exact h.2.2 (List.mem_map.mpr ⟨e, he, hpe⟩) (by simp)
    have hins : insertAssoc acc en.1 en.2 = acc ++ [en] := by
      unfold insertAssoc
      rw [if_neg (by simp [hnot])]
    rw [hins, ih (acc ++ [en]) (by simpa using h)]
    simp

theorem buildMap_eq_self {κ β : Type} [DecidableEq κ] {l : List (κ × β)}
    (h : (l.map (fun e => e.1)).Nodup) : buildMap l = l := by
  have := buildMap_eq_self_aux l [] (by simpa using h)
  simpa using this

theorem lookupAssoc_isSome_of_mem_keys {κ β : Type} [DecidableEq κ]
    {m : List (κ × β)} {k : κ} (h : k ∈ m.map (fun e => e.1)) :
    (lookupAssoc m k).isSome = true := by
  rcases List.mem_map.mp h with ⟨e, he, rfl⟩
  unfold lookupAssoc
  cases hf : m.find? (fun en => en.1 = e.1) with
  | none =>
    rw [List.find?_eq_none] at hf
    exact absurd (by simp : (fun en => decide (en.1 = e.1)) e = true) (hf e he)
  | some e2 => rfl

theorem lookupAssoc_mem {κ β : Type} [DecidableEq κ] {m : List (κ × β)}
    {k : κ} {v : β} (h : lookupAssoc m k = some v) : (k, v) ∈ m := by
  unfold lookupAssoc at h
  cases hf : m.find? (fun e => e.1 = k) with
  | none =>
    rw [hf] at h
    simp at h
  | some e =>
    rw [hf] at h
    simp at h
    have hmem := List.mem_of_find?_eq_some hf
    have hpe := List.find?_some hf
    simp only [decide_eq_true_eq] at hpe
    rw [← h, ← hpe]
    exact hmem

/-- `FileRecord` (`rag/types.rs`). -/
structure FileRecord where
  projectId : String
  fileId : String
  filePath : String
  fileHash : String
  mtime : Nat
  size : Nat
  isDeleted : Option Bool
  updatedAt : String
  deriving Repr, DecidableEq

/-- `FileCandidate` as produced by `scan_project_files`/
`prepare_file_candidate`. -/
structure FileCandidate where
  fileId : String
  filePath : String
  fileHash : String
  mtime : Nat
  size : Nat
  deriving Repr, DecidableEq

/-- `MemoryStore` (`rag/store.rs`): chunk rows carry their
`(project_id, file_id)`; the file manifest is keyed by
`(project_id, file_id)`. -/
structure MemStore where
  chunks : List (String × String)
  files : List ((String × String) × FileRecord)
  deriving Repr, DecidableEq

/-- `MemoryStore::list_files`: manifest values of the project. -/
def list_files (s : MemStore) (pid : String) : List FileRecord :=
  (s.files.filter (fun e => e.2.projectId = pid)).map (fun e => e.2)

/-- `MemoryStore::get_file_manifest`. -/
def get_file_manifest (s : MemStore) (pid fid : String) : Option FileRecord :=
  lookupAssoc s.files (pid, fid)

/-- `MemoryStore::delete_by_file`: drop the file's chunk rows, returning how
many were removed. -/
def delete_by_file (s : MemStore) (pid fid : String) : Nat × MemStore :=
  let remaining := s.chunks.filter (fun c => ¬(c.1 = pid ∧ c.2 = fid))
  (s.chunks.length - remaining.length, { s with chunks := remaining })

/-- `MemoryStore::add_chunks`. -/
def add_chunks (s : MemStore) (l : List (String × String)) : MemStore :=
  { s with chunks := s.chunks ++ l }

/-- `MemoryStore::upsert_file_manifest`. -/
def upsert_file_manifest (s : MemStore) (rec : FileRecord) : MemStore :=
  { s with files := insertAssoc s.files (rec.projectId, rec.fileId) rec }

/-- The store's representation invariant: every manifest binding is keyed by
its record's `(project_id, file_id)`, and keys are unique (a `HashMap`). -/
def StoreWf (s : MemStore) : Prop :=
  (∀ e ∈ s.files, e.1 = (e.2.projectId, e.2.fileId)) ∧
  (s.files.map (fun e => e.1)).Nodup

/-- The relevant counters of `IndexReport` (`rag/types.rs`). -/
structure IndexReport where
  projectId : String
  indexedFiles : Nat
  updatedFiles : Nat
  deletedFiles : Nat
  chunksAdded : Nat
  chunksDeleted : Nat
  deriving Repr, DecidableEq

def initReport (pid : String) : IndexReport :=
  { projectId := pid, indexedFiles := 0, updatedFiles := 0, deletedFiles := 0,
    chunksAdded := 0, chunksDeleted := 0 }

/-- The chunk rows `build_chunks` + `add_chunks` create for one candidate:
all tagged `(project_id, file_id)`; only their number (`nchunks`) matters. -/
def buildChunkKeys (pid : String) (c : FileCandidate)
    (nchunks : FileCandidate → Nat) : List (String × String) :=
  List.replicate (nchunks c) (pid, c.fileId)

/-- The manifest record written after (re)indexing a candidate. -/
def freshRecord (pid : String) (c : FileCandidate) (now : String) : FileRecord :=
  { projectId := pid, fileId := c.fileId, filePath := c.filePath,
    fileHash := c.fileHash, mtime := c.mtime, size := c.size,
    isDeleted := some false, updatedAt := now }

/-- The deletion pass of `index_sync_project` (service.rs lines 173-185):
for every live manifest entry whose file is no longer on disk, delete its
chunks, count it, and mark it deleted. -/
def syncDeletePass (pid now : String) (currentKeys : List String) :
    List (String × FileRecord) → MemStore × IndexReport →
    MemStore × IndexReport
  | [], acc => acc
  | (fid, record) :: rest, (s, rep) =>
    if fid ∈ currentKeys then syncDeletePass pid now currentKeys rest (s, rep)
    else
      let (deleted, s1) := delete_by_file s pid fid
      let s2 := upsert_file_manifest s1
        { record with isDeleted := some true, updatedAt := now }
      syncDeletePass pid now currentKeys rest
        (s2, { rep with chunksDeleted := rep.chunksDeleted + deleted, deletedFiles := rep.deletedFiles + 1 })

/-- The indexing pass of `index_sync_project` (service.rs lines 187-219):
skip unchanged files, reindex changed ones, index new ones. -/
def syncIndexPass (pid now : String) (nchunks : FileCandidate → Nat)
    (existing : List (String × FileRecord)) :
    List (String × FileCandidate) → MemStore × IndexReport →
    MemStore × IndexReport
  | [], acc => acc
  | (fid, cand) :: rest, (s, rep) =>
    match lookupAssoc existing fid with
    | some r =>
      if r.fileHash = cand.fileHash then
        syncIndexPass pid now nchunks existing rest (s, rep)
      else
        let (d, s1) := delete_by_file s pid fid
        let s2 := add_chunks s1 (buildChunkKeys pid cand nchunks)
        let s3 := upsert_file_manifest s2 (freshRecord pid cand now)
        syncIndexPass pid now nchunks existing rest
          (s3, { rep with chunksDeleted := rep.chunksDeleted + d, updatedFiles := rep.updatedFiles + 1, chunksAdded := rep.chunksAdded + nchunks cand })
    | none =>
      let s2 := add_chunks s (buildChunkKeys pid cand nchunks)
      let s3 := upsert_file_manifest s2 (freshRecord pid cand now)
      syncIndexPass pid now nchunks existing rest
        (s3, { rep with indexedFiles := rep.indexedFiles + 1, chunksAdded := rep.chunksAdded + nchunks cand })

/-- `RagService::index_sync_project` (service.rs lines 131-222) given the
scanned candidates: build the `current` map, build the `existing` map from
live manifest entries, run the deletion pass then the indexing pass. -/
def index_sync_project (s : MemStore) (pid : String)
    (cands : List FileCandidate) (nchunks : FileCandidate → Nat)
    (now : String) : MemStore × IndexReport :=
  let current := buildMap (cands.map (fun c => (c.fileId, c)))
  let existing := buildMap
    (((list_files s pid).filter (fun r => ¬(r.isDeleted = some true))).map
      (fun r => (r.fileId, r)))
  let currentKeys := current.map (fun e => e.1)
  let acc1 := syncDeletePass pid now currentKeys existing (s, initReport pid)
  syncIndexPass pid now nchunks existing current acc1

theorem storeWf_upsert {s : MemStore} (h : StoreWf s) (rec : FileRecord) :
    StoreWf (upsert_file_manifest s rec) := by
  obtain ⟨hk, hnd⟩ := h
  constructor
  · intro e he
    rcases mem_insertAssoc he with ⟨hm, _⟩ | rfl
    · exact hk e hm
    · rfl
  · exact keys_insertAssoc_nodup _ _ hnd

theorem get_upsert_self (s : MemStore) (rec : FileRecord) :
    get_file_manifest (upsert_file_manifest s rec) rec.projectId rec.fileId =
      some rec :=
  lookupAssoc_insert_self _ _ _

theorem get_upsert_other (s : MemStore) (rec : FileRecord) (pid fid : String)
    (h : (pid, fid) ≠ (rec.projectId, rec.fileId)) :
    get_file_manifest (upsert_file_manifest s rec) pid fid =
      get_file_manifest s pid fid :=
  lookupAssoc_insert_other _ _ _ _ h

theorem mem_list_files {s : MemStore} {pid : String} {r : FileRecord} :
    r ∈ list_files s pid ↔ ∃ e ∈ s.files, e.2 = r ∧ r.projectId = pid := by
  unfold list_files
  constructor
  · intro h
    rcases List.mem_map.mp h with ⟨e, he, rfl⟩
    have hp := List.of_mem_filter he
    simp only [decide_eq_true_eq] at hp
    exact ⟨e, List.mem_of_mem_filter he, rfl, hp⟩
  · rintro ⟨e, he, rfl, hp⟩
    exact List.mem_map.mpr ⟨e, List.mem_filter.mpr ⟨he, by simp [hp]⟩, rfl⟩

/-- In a well-formed store, a manifest entry is what the keyed lookup
returns. -/
theorem get_of_mem {s : MemStore} (hwf : StoreWf s)
    {e : (String × String) × FileRecord} (he : e ∈ s.files) :
    get_file_manifest s e.2.projectId e.2.fileId = some e.2 := by
  obtain ⟨hk, hnd⟩ := hwf
  have hkey := hk e he
  unfold get_file_manifest lookupAssoc
  cases hf : s.files.find?
      (fun en => en.1 = (e.2.projectId, e.2.fileId)) with
  | none =>
    rw [List.find?_eq_none] at hf
    have := hf e he
    simp only [decide_eq_true_eq] at this
    exact absurd hkey this
  | some e2 =>
    have hm2 := List.mem_of_find?_eq_some hf
    have hp2 := List.find?_some hf
    simp only [decide_eq_true_eq] at hp2
    have he2 : e2 = e :=
      List.inj_on_of_nodup_map hnd hm2 he (by rw [hp2, hkey])
    rw [he2]
    rfl

theorem list_files_keys_nodup {s : MemStore} (hwf : StoreWf s) (pid : String) :
    (((list_files s pid).filter (fun r => ¬(r.isDeleted = some true))).map
      (fun r => r.fileId)).Nodup := by
  obtain ⟨hk, hnd⟩ := hwf
  unfold list_files
  rw [List.filter_map, List.map_map]
  apply List.Nodup.map_on
  · intro x hx y hy hxy
    have hxf := List.mem_of_mem_filter hx
    have hyf := List.mem_of_mem_filter hy
    have hxm := List.mem_of_mem_filter hxf
    have hym := List.mem_of_mem_filter hyf
    have hxp := List.of_mem_filter hxf
    have hyp := List.of_mem_filter hyf
    simp only [decide_eq_true_eq] at hxp hyp
    apply List.inj_on_of_nodup_map hnd hxm hym
    rw [hk x hxm, hk y hym]
    simp only [Function.comp] at hxy
    rw [hxp, hyp, hxy]
  · exact ((List.Nodup.of_map _ hnd).filter _).filter _

/-- What the deletion pass guarantees: well-formedness, preservation of
manifests at still-present keys, and afterwards every live record of the
project is among the present keys. -/
theorem syncDeletePass_spec (pid now : String) (ck : List String) :
    ∀ (ex : List (String × FileRecord)) (s : MemStore) (rep : IndexReport),
      StoreWf s →
      (∀ en ∈ ex, en.2.projectId = pid ∧ en.2.fileId = en.1) →
      (∀ e ∈ s.files, e.2.projectId = pid → ¬(e.2.isDeleted = some true) →
        e.2.fileId ∈ ck ∨ ∃ r, (e.2.fileId, r) ∈ ex) →
      StoreWf (syncDeletePass pid now ck ex (s, rep)).1 ∧
      (∀ fid ∈ ck,
        get_file_manifest (syncDeletePass pid now ck ex (s, rep)).1 pid fid =
          get_file_manifest s pid fid) ∧
      (∀ e ∈ (syncDeletePass pid now ck ex (s, rep)).1.files,
        e.2.projectId = pid → ¬(e.2.isDeleted = some true) →
        e.2.fileId ∈ ck) := by
  intro ex
  induction ex with
  | nil =>
    intro s rep hwf _ hcover
    refine ⟨hwf, fun _ _ => rfl, ?_⟩
    intro e he hp hd
    rcases hcover e he hp hd with h | ⟨r, hr⟩
    · exact h
    · simp at hr
  | cons en rest ih =>
    obtain ⟨fid, record⟩ := en
    intro s rep hwf hex hcover
    have hexh := hex (fid, record) (List.mem_cons_self _ _)
    have hexp : record.projectId = pid := hexh.1
    have hexf : record.fileId = fid := hexh.2
    dsimp only [syncDeletePass]
    by_cases hin : fid ∈ ck
    · rw [if_pos hin]
      apply ih s rep hwf
      · intro en hen
        exact hex en (List.mem_cons_of_mem _ hen)
      · intro e he hp hd
        rcases hcover e he hp hd with h | ⟨r, hr⟩
        · exact Or.inl h
        · rcases List.mem_cons.mp hr with heq | htail
          · injection heq with h1 _
            rw [h1]
            exact Or.inl hin
          · exact Or.inr ⟨r, htail⟩
    · rw [if_neg hin]
      dsimp only [delete_by_file]
      have hwf2 : StoreWf (upsert_file_manifest
          { s with chunks := s.chunks.filter (fun c => ¬(c.1 = pid ∧ c.2 = fid)) }
          { record with isDeleted := some true, updatedAt := now }) :=
        storeWf_upsert hwf _
      obtain ⟨c1, c2, c3⟩ := ih _ _ hwf2
        (fun en hen => hex en (List.mem_cons_of_mem _ hen))
        (by
          intro e he hp hd
          rcases mem_insertAssoc he with ⟨hm, hne⟩ | rfl
          · rcases hcover e hm hp hd with h | ⟨r, hr⟩
            · exact Or.inl h
            · rcases List.mem_cons.mp hr with heq | htail
              · injection heq with h1 _
                exfalso
                apply hne
                rw [hwf.1 e hm, hp, h1]
                show (pid, fid) = (record.projectId, record.fileId)
                rw [hexp, hexf]
              · exact Or.inr ⟨r, htail⟩
          · exact absurd rfl hd)
      refine ⟨c1, ?_, c3⟩
      intro fid' hfid'
      rw [c2 fid' hfid']
      apply get_upsert_other
      intro heq
      injection heq with _ h2
      apply hin
      have h2' : fid' = record.fileId := h2
      exact (h2'.trans hexf) ▸ hfid'

/-- The indexing pass does not touch the manifest of a file that is not in
the processed batch. -/
theorem syncIndexPass_preserves (pid now : String)
    (nchunks : FileCandidate → Nat) (existing : List (String × FileRecord)) :
    ∀ (cur : List (String × FileCandidate)) (s : MemStore) (rep : IndexReport)
      (fid : String),
      (∀ en ∈ cur, en.2.fileId = en.1) →
      fid ∉ cur.map (fun e => e.1) →
      get_file_manifest (syncIndexPass pid now nchunks existing cur
        (s, rep)).1 pid fid = get_file_manifest s pid fid := by
  intro cur
  induction cur with
  | nil =>
    intro s rep fid _ _
    rfl
  | cons en rest ih =>
    obtain ⟨fid0, cand⟩ := en
    intro s rep fid hshape hnot
    have hne : fid ≠ fid0 := by
      intro h
      exact hnot (by
        rw [h]
        exact List.mem_map.mpr ⟨(fid0, cand), List.mem_cons_self _ _, rfl⟩)
    have hnot2 : fid ∉ rest.map (fun e => e.1) := by
      intro h
      exact hnot (by
        simp only [List.map_cons]
        exact List.mem_cons_of_mem _ h)
    have hshape2 : ∀ en ∈ rest, en.2.fileId = en.1 :=
      fun en hen => hshape en (List.mem_cons_of_mem _ hen)
    have hfidc : cand.fileId = fid0 :=
      hshape (fid0, cand) (List.mem_cons_self _ _)
    dsimp only [syncIndexPass]
    split
    case h_1 r hex =>
      by_cases hh : r.fileHash = cand.fileHash
      · rw [if_pos hh]
        exact ih s rep fid hshape2 hnot2
      · rw [if_neg hh]
        dsimp only [delete_by_file, add_chunks]
        rw [ih _ _ fid hshape2 hnot2]
        apply get_upsert_other
        intro heq
        injection heq with _ h2
        have h2' : fid = cand.fileId := h2
        exact hne (h2'.trans hfidc)
    case h_2 hex =>
      dsimp only [add_chunks]
      rw [ih _ _ fid hshape2 hnot2]
      apply get_upsert_other
      intro heq
      injection heq with _ h2
      have h2' : fid = cand.fileId := h2
      exact hne (h2'.trans hfidc)

/-- What the indexing pass guarantees when every entry it can skip is
already well-recorded in the store. -/
theorem syncIndexPass_spec (pid now : String) (nchunks : FileCandidate → Nat)
    (existing : List (String × FileRecord)) (ckAll : List String) :
    ∀ (cur : List (String × FileCandidate)) (s : MemStore) (rep : IndexReport),
      StoreWf s →
      (∀ en ∈ cur, en.2.fileId = en.1) →
      ((cur.map (fun e => e.1)).Nodup) →
      (∀ en ∈ cur, en.1 ∈ ckAll) →
      (∀ e ∈ s.files, e.2.projectId = pid → ¬(e.2.isDeleted = some true) →
        e.2.fileId ∈ ckAll) →
      (∀ en ∈ cur, ∀ r, lookupAssoc existing en.1 = some r →
        get_file_manifest s pid en.1 = some r ∧
          ¬(r.isDeleted = some true)) →
      StoreWf (syncIndexPass pid now nchunks existing cur (s, rep)).1 ∧
      (∀ e ∈ (syncIndexPass pid now nchunks existing cur (s, rep)).1.files,
        e.2.projectId = pid → ¬(e.2.isDeleted = some true) →
        e.2.fileId ∈ ckAll) ∧
      (∀ en ∈ cur, ∃ r,
        get_file_manifest (syncIndexPass pid now nchunks existing cur
          (s, rep)).1 pid en.1 = some r ∧
        r.fileHash = en.2.fileHash ∧ ¬(r.isDeleted = some true)) := by
  intro cur
  induction cur with
  | nil =>
    intro s rep hwf _ _ _ hlive _
    refine ⟨hwf, hlive, ?_⟩
    intro en hen
    simp at hen
  | cons en rest ih =>
    obtain ⟨fid, cand⟩ := en
    intro s rep hwf hshape hnd hsub hlive hskip
    have hfidc : cand.fileId = fid := hshape (fid, cand) (List.mem_cons_self _ _)
    have hshape2 : ∀ en ∈ rest, en.2.fileId = en.1 :=
      fun en hen => hshape en (List.mem_cons_of_mem _ hen)
    have hndr : (rest.map (fun e => e.1)).Nodup := by
      simp only [List.map_cons, List.nodup_cons] at hnd
      exact hnd.2
    have hfidnotin : fid ∉ rest.map (fun e => e.1) := by
      simp only [List.map_cons, List.nodup_cons] at hnd
      exact hnd.1
    have hsub2 : ∀ en ∈ rest, en.1 ∈ ckAll :=
      fun en hen => hsub en (List.mem_cons_of_mem _ hen)
    dsimp only [syncIndexPass]
    split
    case h_1 r hex =>
      obtain ⟨hgood, hgoodd⟩ := hskip (fid, cand) (List.mem_cons_self _ _) r hex
      by_cases hh : r.fileHash = cand.fileHash
      · rw [if_pos hh]
        obtain ⟨c1, c2, c3⟩ := ih s rep hwf hshape2 hndr hsub2 hlive
          (fun en hen => hskip en (List.mem_cons_of_mem _ hen))
        refine ⟨c1, c2, ?_⟩
        intro en hen
        rcases List.mem_cons.mp hen with heq | htail
        · subst heq
          refine ⟨r, ?_, hh, hgoodd⟩
          show get_file_manifest (syncIndexPass pid now nchunks existing rest
            (s, rep)).1 pid fid = some r
          rw [syncIndexPass_preserves pid now nchunks existing rest s rep fid
            hshape2 hfidnotin]
          exact hgood
        · exact c3 en htail
      · rw [if_neg hh]
        dsimp only [delete_by_file, add_chunks]
        have hwf3 : StoreWf (upsert_file_manifest
            { s with chunks := (s.chunks.filter (fun c => ¬(c.1 = pid ∧ c.2 = fid))) ++ buildChunkKeys pid cand nchunks }
            (freshRecord pid cand now)) :=
          storeWf_upsert hwf _
        obtain ⟨c1, c2, c3⟩ := ih _ _ hwf3 hshape2 hndr hsub2
          (by
            intro e he hp hd
            rcases mem_insertAssoc he with ⟨hm, _⟩ | rfl
            · exact hlive e hm hp hd
            · show (freshRecord pid cand now).fileId ∈ ckAll
              have : (freshRecord pid cand now).fileId = fid := hfidc
              rw [this]
              exact hsub (fid, cand) (List.mem_cons_self _ _))
          (by
            intro en hen r2 hr2
            have hne : en.1 ≠ fid := by
              intro hcontra
              exact hfidnotin (hcontra ▸ List.mem_map.mpr ⟨en, hen, rfl⟩)
            have hpr : get_file_manifest (upsert_file_manifest
                { s with chunks := (s.chunks.filter (fun c => ¬(c.1 = pid ∧ c.2 = fid))) ++ buildChunkKeys pid cand nchunks }
                (freshRecord pid cand now)) pid en.1 =
                get_file_manifest s pid en.1 := by
              apply get_upsert_other
              intro heq
              injection heq with _ h2
              have h2' : en.1 = cand.fileId := h2
              exact hne (h2'.trans hfidc)
            rw [hpr]
            exact hskip en (List.mem_cons_of_mem _ hen) r2 hr2)
        refine ⟨c1, c2, ?_⟩
        intro en hen
        rcases List.mem_cons.mp hen with heq | htail
        · subst heq
          refine ⟨freshRecord pid cand now, ?_, rfl, by simp [freshRecord]⟩
          show get_file_manifest (syncIndexPass pid now nchunks existing rest
            _).1 pid fid = some (freshRecord pid cand now)
          rw [syncIndexPass_preserves pid now nchunks existing rest _ _ fid
            hshape2 hfidnotin]
          have h := get_upsert_self
            { s with chunks := (s.chunks.filter (fun c => ¬(c.1 = pid ∧ c.2 = fid))) ++ buildChunkKeys pid cand nchunks }
            (freshRecord pid cand now)
          have h' : get_file_manifest (upsert_file_manifest
              { s with chunks := (s.chunks.filter (fun c => ¬(c.1 = pid ∧ c.2 = fid))) ++ buildChunkKeys pid cand nchunks }
              (freshRecord pid cand now)) pid cand.fileId =
              some (freshRecord pid cand now) := h
          rw [hfidc] at h'
          exact h'
        · exact c3 en htail
    case h_2 hex =>
      dsimp only [add_chunks]
      have hwf3 : StoreWf (upsert_file_manifest
          { s with chunks := s.chunks ++ buildChunkKeys pid cand nchunks }
          (freshRecord pid cand now)) :=
        storeWf_upsert hwf _
      obtain ⟨c1, c2, c3⟩ := ih _ _ hwf3 hshape2 hndr hsub2
        (by
          intro e he hp hd
          rcases mem_insertAssoc he with ⟨hm, _⟩ | rfl
          · exact hlive e hm hp hd
          · show (freshRecord pid cand now).fileId ∈ ckAll
            have : (freshRecord pid cand now).fileId = fid := hfidc
            rw [this]
            exact hsub (fid, cand) (List.mem_cons_self _ _))
        (by
          intro en hen r2 hr2
          have hne : en.1 ≠ fid := by
            intro hcontra
            exact hfidnotin (hcontra ▸ List.mem_map.mpr ⟨en, hen, rfl⟩)
          have hpr : get_file_manifest (upsert_file_manifest
              { s with chunks := s.chunks ++ buildChunkKeys pid cand nchunks }
              (freshRecord pid cand now)) pid en.1 =
              get_file_manifest s pid en.1 := by
            apply get_upsert_other
            intro heq
            injection heq with _ h2
            have h2' : en.1 = cand.fileId := h2
            exact hne (h2'.trans hfidc)
          rw [hpr]
          exact hskip en (List.mem_cons_of_mem _ hen) r2 hr2)
      refine ⟨c1, c2, ?_⟩
      intro en hen
      rcases List.mem_cons.mp hen with heq | htail
      · subst heq
        refine ⟨freshRecord pid cand now, ?_, rfl, by simp [freshRecord]⟩
        show get_file_manifest (syncIndexPass pid now nchunks existing rest
          _).1 pid fid = some (freshRecord pid cand now)
        rw [syncIndexPass_preserves pid now nchunks existing rest _ _ fid
          hshape2 hfidnotin]
        have h := get_upsert_self
          { s with chunks := s.chunks ++ buildChunkKeys pid cand nchunks }
          (freshRecord pid cand now)
        have h' : get_file_manifest (upsert_file_manifest
            { s with chunks := s.chunks ++ buildChunkKeys pid cand nchunks }
            (freshRecord pid cand now)) pid cand.fileId =
            some (freshRecord pid cand now) := h
        rw [hfidc] at h'
        exact h'
      · exact c3 en htail

/-- The deletion pass is a no-op when every live file is still on disk. -/
theorem syncDeletePass_id (pid now : String) (ck : List String) :
    ∀ (ex : List (String × FileRecord)) (s : MemStore) (rep : IndexReport),
      (∀ en ∈ ex, en.1 ∈ ck) →
      syncDeletePass pid now ck ex (s, rep) = (s, rep) := by
  intro ex
  induction ex with
  | nil =>
    intro s rep _
    rfl
  | cons en rest ih =>
    obtain ⟨fid, record⟩ := en
    intro s rep hall
    dsimp only [syncDeletePass]
    rw [if_pos (hall (fid, record) (List.mem_cons_self _ _))]
    exact ih s rep (fun en hen => hall en (List.mem_cons_of_mem _ hen))

/-- The indexing pass is a no-op when every candidate's manifest hash is
unchanged. -/
theorem syncIndexPass_id (pid now : String) (nchunks : FileCandidate → Nat)
    (existing : List (String × FileRecord)) :
    ∀ (cur : List (String × FileCandidate)) (s : MemStore) (rep : IndexReport),
      (∀ en ∈ cur, ∃ r, lookupAssoc existing en.1 = some r ∧
        r.fileHash = en.2.fileHash) →
      syncIndexPass pid now nchunks existing cur (s, rep) = (s, rep) := by
  intro cur
  induction cur with
  | nil =>
    intro s rep _
    rfl
  | cons en rest ih =>
    obtain ⟨fid, cand⟩ := en
    intro s rep hall
    obtain ⟨r, hr, hh⟩ := hall (fid, cand) (List.mem_cons_self _ _)
    have hr' : lookupAssoc existing fid = some r := hr
    have hh' : r.fileHash = cand.fileHash := hh
    dsimp only [syncIndexPass]
    split
    case h_1 r2 hex =>
      rw [hex] at hr'
      injection hr' with hr2
      subst hr2
      rw [if_pos hh']
      exact ih s rep (fun en hen => hall en (List.mem_cons_of_mem _ hen))
    case h_2 hex =>
      rw [hex] at hr'
      exact absurd hr' (by simp)

/-- After one sync run from a well-formed store: the store is well-formed,
every live record of the project is a current file, and every current file
has a live manifest carrying its candidate's hash. -/
theorem index_sync_post (s0 : MemStore) (pid : String)
    (cands : List FileCandidate) (nchunks : FileCandidate → Nat)
    (now : String) (hwf : StoreWf s0) :
    StoreWf (index_sync_project s0 pid cands nchunks now).1 ∧
    (∀ e ∈ (index_sync_project s0 pid cands nchunks now).1.files,
      e.2.projectId = pid → ¬(e.2.isDeleted = some true) →
      e.2.fileId ∈ (buildMap (cands.map (fun c => (c.fileId, c)))).map
        (fun e => e.1)) ∧
    (∀ en ∈ buildMap (cands.map (fun c => (c.fileId, c))), ∃ r,
      get_file_manifest (index_sync_project s0 pid cands nchunks now).1 pid
        en.1 = some r ∧
      r.fileHash = en.2.fileHash ∧ ¬(r.isDeleted = some true)) := by
  have hpairs_keys :
      ((((list_files s0 pid).filter (fun r => ¬(r.isDeleted = some true))).map
        (fun r => (r.fileId, r))).map (fun e => e.1)) =
      (((list_files s0 pid).filter (fun r => ¬(r.isDeleted = some true))).map
        (fun r => r.fileId)) := by
    rw [List.map_map]
    rfl
  have hbm : buildMap
      (((list_files s0 pid).filter (fun r => ¬(r.isDeleted = some true))).map
        (fun r => (r.fileId, r))) =
      ((list_files s0 pid).filter (fun r => ¬(r.isDeleted = some true))).map
        (fun r => (r.fileId, r)) := by
    apply buildMap_eq_self
    rw [hpairs_keys]
    exact list_files_keys_nodup hwf pid
  have hexshape : ∀ en ∈ buildMap
      (((list_files s0 pid).filter (fun r => ¬(r.isDeleted = some true))).map
        (fun r => (r.fileId, r))),
      en.2.projectId = pid ∧ en.2.fileId = en.1 := by
    intro en hen
    rw [hbm] at hen
    rcases List.mem_map.mp hen with ⟨r, hrf, rfl⟩
    have hrl := List.mem_of_mem_filter hrf
    rcases mem_list_files.mp hrl with ⟨e, _, _, hp⟩
    exact ⟨hp, rfl⟩
  obtain ⟨d1, d2, d3⟩ := syncDeletePass_spec pid now
    ((buildMap (cands.map (fun c => (c.fileId, c)))).map (fun e => e.1))
    (buildMap
      (((list_files s0 pid).filter (fun r => ¬(r.isDeleted = some true))).map
        (fun r => (r.fileId, r))))
    s0 (initReport pid) hwf hexshape
    (by
      intro e he hp hd
      refine Or.inr ⟨e.2, ?_⟩
      rw [hbm]
      refine List.mem_map.mpr ⟨e.2, ?_, rfl⟩
      refine List.mem_filter.mpr ⟨?_, by simp [hd]⟩
      exact mem_list_files.mpr ⟨e, he, rfl, hp⟩)
  obtain ⟨i1, i2, i3⟩ := syncIndexPass_spec pid now nchunks
    (buildMap
      (((list_files s0 pid).filter (fun r => ¬(r.isDeleted = some true))).map
        (fun r => (r.fileId, r))))
    ((buildMap (cands.map (fun c => (c.fileId, c)))).map (fun e => e.1))
    (buildMap (cands.map (fun c => (c.fileId, c))))
    (syncDeletePass pid now
      ((buildMap (cands.map (fun c => (c.fileId, c)))).map (fun e => e.1))
      (buildMap
        (((list_files s0 pid).filter
          (fun r => ¬(r.isDeleted = some true))).map (fun r => (r.fileId, r))))
      (s0, initReport pid)).1
    (syncDeletePass pid now
      ((buildMap (cands.map (fun c => (c.fileId, c)))).map (fun e => e.1))
      (buildMap
        (((list_files s0 pid).filter
          (fun r => ¬(r.isDeleted = some true))).map (fun r => (r.fileId, r))))
      (s0, initReport pid)).2
    d1
    (by
      intro en hen
      rcases List.mem_map.mp (mem_buildMap hen) with ⟨c, _, rfl⟩
      rfl)
    (keys_buildMap_nodup _)
    (fun en hen => List.mem_map.mpr ⟨en, hen, rfl⟩)
    d3
    (by
      intro en hen r hlook
      have hmem := lookupAssoc_mem hlook
      rw [hbm] at hmem
      rcases List.mem_map.mp hmem with ⟨r0, hr0f, heq0⟩
      injection heq0 with heqa heqb
      have hnd : ¬(r.isDeleted = some true) := by
        rw [← heqb]
        have := List.of_mem_filter hr0f
        simpa using this
      have hrl := List.mem_of_mem_filter hr0f
      rcases mem_list_files.mp hrl with ⟨e, he, he2, hp⟩
      have hget := get_of_mem hwf he
      rw [he2] at hget
      rw [hp, heqa, heqb] at hget
      refine ⟨?_, hnd⟩
      rw [d2 en.1 (List.mem_map.mpr ⟨en, hen, rfl⟩)]
      exact hget)
  exact ⟨i1, i2, i3⟩

/-- Claim C7: syncing a project twice with unchanged files (same scanned
candidates) yields a second report with `indexed_files = 0`,
`updated_files = 0`, `deleted_files = 0` — the deletion pass skips every
live manifest entry (all still current) and the indexing pass skips every
candidate (all hashes match the manifest). -/
theorem index_sync_idempotent (s0 : MemStore) (pid : String)
    (cands : List FileCandidate) (nchunks : FileCandidate → Nat)
    (now1 now2 : String) (hwf : StoreWf s0) :
    (index_sync_project (index_sync_project s0 pid cands nchunks now1).1 pid
      cands nchunks now2).2.indexedFiles = 0 ∧
    (index_sync_project (index_sync_project s0 pid cands nchunks now1).1 pid
      cands nchunks now2).2.updatedFiles = 0 ∧
    (index_sync_project (index_sync_project s0 pid cands nchunks now1).1 pid
      cands nchunks now2).2.deletedFiles = 0 := by
  obtain ⟨p1, p2, p3⟩ := index_sync_post s0 pid cands nchunks now1 hwf
  set s1 := (index_sync_project s0 pid cands nchunks now1).1 with hs1
  have hDP : ∀ en ∈ buildMap
      (((list_files s1 pid).filter
        (fun r => ¬(r.isDeleted = some true))).map (fun r => (r.fileId, r))),
      en.1 ∈ (buildMap (cands.map (fun c => (c.fileId, c)))).map
        (fun e => e.1) := by
    intro en hen
    rcases List.mem_map.mp (mem_buildMap hen) with ⟨r, hrf, rfl⟩
    have hnd : ¬(r.isDeleted = some true) := by
      have := List.of_mem_filter hrf
      simpa using this
    rcases mem_list_files.mp (List.mem_of_mem_filter hrf) with ⟨e, he, he2, hp⟩
    have hthis := p2 e he (by rw [he2]; exact hp) (by rw [he2]; exact hnd)
    show r.fileId ∈ _
    rw [← he2]
    exact hthis
  have hIP : ∀ en ∈ buildMap (cands.map (fun c => (c.fileId, c))),
      ∃ r, lookupAssoc (buildMap
        (((list_files s1 pid).filter (fun r => ¬(r.isDeleted = some true))).map
          (fun r => (r.fileId, r)))) en.1 = some r ∧
        r.fileHash = en.2.fileHash := by
    intro en hen
    obtain ⟨rs, hget, hhash, hnd⟩ := p3 en hen
    have hmem := lookupAssoc_mem hget
    have hkey := p1.1 _ hmem
    have hproj : rs.projectId = pid := by
      have := congrArg Prod.fst hkey
      exact this.symm
    have hfid : rs.fileId = en.1 := by
      have := congrArg Prod.snd hkey
      exact this.symm
    have hpairs : (en.1, rs) ∈
        ((list_files s1 pid).filter (fun r => ¬(r.isDeleted = some true))).map
          (fun r => (r.fileId, r)) := by
      refine List.mem_map.mpr ⟨rs, ?_, by rw [hfid]⟩
      refine List.mem_filter.mpr ⟨?_, by simp [hnd]⟩
      exact mem_list_files.mpr ⟨_, hmem, rfl, hproj⟩
    have hkeys : en.1 ∈ (buildMap
        (((list_files s1 pid).filter (fun r => ¬(r.isDeleted = some true))).map
          (fun r => (r.fileId, r)))).map (fun e => e.1) := by
      rw [mem_keys_buildMap]
      exact List.mem_map.mpr ⟨(en.1, rs), hpairs, rfl⟩
    obtain ⟨r, hr⟩ := Option.isSome_iff_exists.mp
      (lookupAssoc_isSome_of_mem_keys hkeys)
    refine ⟨r, hr, ?_⟩
    rcases List.mem_map.mp (mem_buildMap (lookupAssoc_mem hr)) with
      ⟨r0, hr0f, heq0⟩
    injection heq0 with heqa heqb
    rcases mem_list_files.mp (List.mem_of_mem_filter hr0f) with
      ⟨e, he, he2, hp⟩
    have hget2 := get_of_mem p1 he
    rw [he2] at hget2
    rw [hp, heqa] at hget2
    rw [hget2] at hget
    injection hget with hg
    rw [← heqb, hg]
    exact hhash
  dsimp only [index_sync_project]
  rw [syncDeletePass_id _ _ _ _ _ _ hDP, syncIndexPass_id _ _ _ _ _ _ _ hIP]
  exact ⟨rfl, rfl, rfl⟩

/-- Witness for `index_sync_idempotent`: an empty store, one candidate. -/
theorem index_sync_idempotent_witness :
    StoreWf ⟨[], []⟩ ∧
    ((index_sync_project (index_sync_project ⟨[], []⟩ "p"
        [⟨"f1", "a.md", "h1", 3, 7⟩] (fun _ => 2) "t1").1 "p"
        [⟨"f1", "a.md", "h1", 3, 7⟩] (fun _ => 2) "t2").2.indexedFiles = 0 ∧
      (index_sync_project (index_sync_project ⟨[], []⟩ "p"
        [⟨"f1", "a.md", "h1", 3, 7⟩] (fun _ => 2) "t1").1 "p"
        [⟨"f1", "a.md", "h1", 3, 7⟩] (fun _ => 2) "t2").2.updatedFiles = 0 ∧
      (index_sync_project (index_sync_project ⟨[], []⟩ "p"
        [⟨"f1", "a.md", "h1", 3, 7⟩] (fun _ => 2) "t1").1 "p"
        [⟨"f1", "a.md", "h1", 3, 7⟩] (fun _ => 2) "t2").2.deletedFiles = 0) :=
  ⟨⟨by simp, by simp⟩,
    index_sync_idempotent ⟨[], []⟩ "p" [⟨"f1", "a.md", "h1", 3, 7⟩]
      (fun _ => 2) "t1" "t2" ⟨by simp, by simp⟩⟩

end Rag

namespace Speaker

/-! ### Claim C8: speaker stability on back-to-back identical clips

Model of `SpeakerDiarizer::process_window` and `SpeakerClusterer::classify`
(`audio/speaker.rs`).  `f32` values are exact rationals.  The ONNX embedder
session, the switch-detection subroutine built on it, and `f32::sqrt` are
deterministic functions of their inputs and are carried as fields of the
state (`embedFn`, `detectSwitchesFn`, `sqrtFn`); none of the proved facts
depend on their values.  The RMS gate `rms_db(window) < min_rms_db` is
modelled in the power domain: `rms_db` is monotone in the mean square, so
the comparison is `meanSquare window < minRmsAmpSq` where `minRmsAmpSq`
is the squared amplitude threshold `(10 ^ (min_rms_db / 20))²`.
`Instant` is a `Nat` clock passed to each call. -/

def ratMax (a b : Rat) : Rat := if a ≤ b then b else a

/-- `ms_to_samples`. -/
def ms_to_samples (ms rate : Nat) : Nat :=
  if rate = 0 then 0 else saturatingMulU64 ms rate / 1000

/-- `mix_to_mono`'s accumulation loop. -/
def mixAux (ch : Nat) : List Rat → Rat → Nat → List Rat
  | [], sum, count => if 0 < count then [sum / (count : Rat)] else []
  | x :: xs, sum, count =>
    if count + 1 = ch then (sum + x) / (ch : Rat) :: mixAux ch xs 0 0
    else mixAux ch xs (sum + x) (count + 1)

/-- `mix_to_mono`. -/
def mix_to_mono (samples : List Rat) (channels : Nat) : List Rat :=
  let ch := natMax channels 1
  if ch = 1 then samples else mixAux ch samples 0 0

/-- `resample_to_16k` (nearest-lower-neighbour downsampling). -/
def resample_to_16k (samples : List Rat) (rate : Nat) : List Rat :=
  if rate = 16000 then samples
  else
    let ratio : Rat := (rate : Rat) / 16000
    let outLen := (((samples.length : Rat) / ratio).floor).toNat
    (List.range outLen).filterMap (fun i =>
      samples.get? ((((i : Rat) * ratio).floor).toNat))

/-- `extract_window`: center-crop or zero-pad to 16000 samples. -/
def extract_window (samples : List Rat) : List Rat :=
  if samples.isEmpty then List.replicate 16000 0
  else if 16000 ≤ samples.length then
    (samples.drop ((samples.length - 16000) / 2)).take 16000
  else samples ++ List.replicate (16000 - samples.length) 0

/-- The mean square of a window (the square of its RMS amplitude). -/
def meanSquare (w : List Rat) : Rat :=
  (w.map (fun x => x * x)).foldl (fun a b => a + b) 0 / (w.length : Rat)

/-- `cosine_similarity`: plain dot product over the common prefix
(inputs are already normalized). -/
def cosine_similarity (left right : List Rat) : Rat :=
  ((left.zip right).map (fun p => p.1 * p.2)).foldl (fun a b => a + b) 0

/-- `normalize_embedding`, with `f32::sqrt` abstracted. -/
def normalize_embedding (sqrtFn : Rat → Rat) (e : List Rat) : List Rat :=
  let sumsq := (e.map (fun v => v * v)).foldl (fun a b => a + b) 0
  let norm := ratMax (sqrtFn sumsq) (1 / 1000000000)
  e.map (fun v => v / norm)

/-- `update_centroid`: exponential moving average then renormalize; centroid
entries beyond the embedding's length are untouched. -/
def update_centroid (sqrtFn : Rat → Rat) (centroid embedding : List Rat)
    (alpha : Rat) : List Rat :=
  let a := Manager.ratClamp alpha 0 1
  normalize_embedding sqrtFn
    (((centroid.zip embedding).map (fun p => p.1 * a + p.2 * (1 - a))) ++
      centroid.drop embedding.length)

structure SpeakerDecision where
  speakerId : Option Nat
  similarity : Option Rat
  mixed : Bool
  deriving Repr, DecidableEq

structure SpeakerProfile where
  id : Nat
  centroid : List Rat
  deriving Repr, DecidableEq

structure SpeakerClusterer where
  speakers : List SpeakerProfile
  nextId : Nat
  deriving Repr, DecidableEq

def SpeakerClusterer.new : SpeakerClusterer := { speakers := [], nextId := 1 }

/-- `DiarizerConfig` (with the RMS threshold in the power domain). -/
structure DiarizerConfig where
  newThreshold : Rat
  updateThreshold : Rat
  maxSpeakers : Option Nat
  windowMs : Nat
  stepMs : Nat
  minRmsAmpSq : Rat
  updateAlpha : Rat
  deriving Repr, DecidableEq

/-- The `step_ms` computed by `SpeakerDiarizer::new`:
`speaker.hop_ms.unwrap_or(DEFAULT_STEP_MS).max(200)`. -/
def mkStepMs (hop : Option Nat) : Nat := natMax (hop.getD 1000) 200

/-- The best-similarity scan of `classify` (initial best is `-∞`, so the
first speaker always becomes the initial best). -/
def bestScan (embedding : List Rat) (speakers : List SpeakerProfile) :
    Nat × Option Rat :=
  speakers.enum.foldl
    (fun acc p =>
      let sim := cosine_similarity p.2.centroid embedding
      match acc.2 with
      | none => (p.1, some sim)
      | some b => if b < sim then (p.1, some sim) else acc)
    (0, none)

def updateIdx {α : Type} : List α → Nat → (α → α) → List α
  | [], _, _ => []
  | x :: xs, 0, f => f x :: xs
  | x :: xs, i + 1, f => x :: updateIdx xs i f

/-- `SpeakerClusterer::classify` (`audio/speaker.rs` lines 214-274). -/
def SpeakerClusterer.classify (c : SpeakerClusterer) (sqrtFn : Rat → Rat)
    (embedding : List Rat) (config : DiarizerConfig) :
    SpeakerDecision × SpeakerClusterer :=
  if c.speakers.isEmpty then
    ({ speakerId := some c.nextId, similarity := none, mixed := false },
      { speakers := c.speakers ++ [{ id := c.nextId, centroid := embedding }],
        nextId := natMin (c.nextId + 1) (2 ^ 32 - 1) })
  else
    let best := bestScan embedding c.speakers
    let bestIdx := best.1
    let bestSim := best.2.getD 0
    if bestSim < config.newThreshold then
      let atMax :=
        (config.maxSpeakers.map
          (fun lim => decide (lim ≤ c.speakers.length))).getD false
      if atMax then
        ({ speakerId := none, similarity := some bestSim, mixed := false }, c)
      else
        ({ speakerId := some c.nextId, similarity := some bestSim, mixed := false },
          { speakers := c.speakers ++ [{ id := c.nextId, centroid := embedding }],
            nextId := natMin (c.nextId + 1) (2 ^ 32 - 1) })
    else
      let c2 :=
        if config.updateThreshold ≤ bestSim then
          { c with speakers := updateIdx c.speakers bestIdx (fun s =>
              { s with centroid :=
                update_centroid sqrtFn s.centroid embedding config.updateAlpha }) }
        else c
      ({ speakerId := (c.speakers.get? bestIdx).map (fun s => s.id),
          similarity := some bestSim, mixed := false }, c2)

/-- The diarizer state: clusterer, config, rate-limiter timestamp, and the
abstracted deterministic subroutines. -/
structure SpeakerDiarizer where
  clusterer : SpeakerClusterer
  config : DiarizerConfig
  lastProcessed : Option Nat
  embedFn : List Rat → Option (List Rat)
  detectSwitchesFn : List Rat → Option (List Nat)
  sqrtFn : Rat → Rat

/-- `SpeakerDiarizer::process_window` (`audio/speaker.rs` lines 126-182):
rate-limit by `step_ms`, downmix and resample, require a full window, gate
on RMS, gate on detected switches, then embed and classify. -/
def process_window (d : SpeakerDiarizer) (samples : List Rat)
    (sampleRate : Nat) (channels : Nat) (now : Nat) :
    Option SpeakerDecision × SpeakerDiarizer :=
  if (match d.lastProcessed with
      | some last => decide (now - last < d.config.stepMs)
      | none => false) = true then (none, d)
  else
    let mono := mix_to_mono samples channels
    let resampled := resample_to_16k mono sampleRate
    let windowSamples := ms_to_samples d.config.windowMs 16000
    if windowSamples = 0 ∨ resampled.length < windowSamples then (none, d)
    else
      let d1 := { d with lastProcessed := some now }
      let window := resampled.drop (resampled.length - windowSamples)
      if meanSquare window < d.config.minRmsAmpSq then
        (some { speakerId := none, similarity := none, mixed := true }, d1)
      else
        let proceed :=
          match d.detectSwitchesFn window with
          | some switches => switches.isEmpty
          | none => true
        if proceed = false then
          (some { speakerId := none, similarity := none, mixed := true }, d1)
        else
          match d.embedFn (extract_window window) with
          | none => (none, d1)
          | some emb0 =>
            let embedding := normalize_embedding d.sqrtFn emb0
            let dc := d1.clusterer.classify d.sqrtFn embedding d.config
            (some dc.1, { d1 with clusterer := dc.2 })

/-- A call whose resampled input is shorter than the configured window
returns no decision at all. -/
theorem process_window_too_short (d : SpeakerDiarizer) (samples : List Rat)
    (rate ch now : Nat) (hlast : d.lastProcessed = none)
    (hshort : (resample_to_16k (mix_to_mono samples ch) rate).length <
      ms_to_samples d.config.windowMs 16000) :
    process_window d samples rate ch now = (none, d) := by
  unfold process_window
  rw [hlast]
  rw [if_neg (by simp)]
  dsimp only
  rw [if_pos (Or.inr hshort)]

/-- A rate-limited call returns no decision and leaves the diarizer
unchanged (`last.elapsed() < step_ms`). -/
theorem process_window_rate_limited (d : SpeakerDiarizer)
    (samples : List Rat) (rate ch t now : Nat)
    (hlast : d.lastProcessed = some t)
    (hnow : now - t < d.config.stepMs) :
    process_window d samples rate ch now = (none, d) := by
  unfold process_window
  rw [hlast]
  split
  · rfl
  · rename_i h
    simp at h
    exact absurd hnow (not_lt.mpr h)

theorem foldl_add_nonneg :
    ∀ (l : List Rat) (acc : Rat), 0 ≤ acc → (∀ x ∈ l, 0 ≤ x) →
      0 ≤ l.foldl (fun a b => a + b) acc := by
  intro l
  induction l with
  | nil =>
    intro acc h _
    exact h
  | cons x xs ih =>
    intro acc h hx
    rw [List.foldl_cons]
    exact ih _ (add_nonneg h (hx x (List.mem_cons_self _ _)))
      (fun y hy => hx y (List.mem_cons_of_mem _ hy))

theorem meanSquare_nonneg (w : List Rat) : 0 ≤ meanSquare w := by
  unfold meanSquare
  apply div_nonneg
  · apply foldl_add_nonneg _ _ le_rfl
    intro x hx
    rcases List.mem_map.mp hx with ⟨y, _, rfl⟩
    exact mul_self_nonneg y
  · exact Nat.cast_nonneg _

/-- A diarizer as configured for the counterexample: the
construction-clamped default 1000 ms step, a 1 ms analysis window so the
model's window fits a short clip, an embedder returning a unit
embedding. -/
def diarC8 : SpeakerDiarizer :=
  { clusterer := SpeakerClusterer.new
    config :=
      { newThreshold := 3 / 4, updateThreshold := 4 / 5,
        maxSpeakers := some 8, windowMs := 1, stepMs := mkStepMs none,
        minRmsAmpSq := 0, updateAlpha := 4 / 5 }
    lastProcessed := none
    embedFn := fun _ => some [1]
    detectSwitchesFn := fun _ => some []
    sqrtFn := fun x => x }

def clipC8 : List Rat := List.replicate 16 1

def oneSecondC8 : List Rat := List.replicate 16000 1

/-- The diarizer state after the successful first call at time 0. -/
def diarC8' : SpeakerDiarizer :=
  { diarC8 with
      lastProcessed := some 0
      clusterer := { speakers := [{ id := 1, centroid := [1] }], nextId := 2 } }

/-- The first call at time 0 succeeds and assigns speaker 1. -/
theorem first_call_eq :
    process_window diarC8 clipC8 16000 1 0 =
      (some { speakerId := some 1, similarity := none, mixed := false },
        diarC8') := by
  have hml : ∀ w, ¬(meanSquare w < (0 : Rat)) :=
    fun w => not_lt.mpr (meanSquare_nonneg w)
  unfold process_window
  norm_num [diarC8, diarC8', clipC8, mix_to_mono, resample_to_16k,
    ms_to_samples, natMax, natMin, saturatingMulU64, U64_MAX, mkStepMs, hml,
    SpeakerClusterer.new, SpeakerClusterer.classify, normalize_embedding,
    ratMax]

/-- Claim C8 counterexample: the same clip processed twice back-to-back.
The first call succeeds and assigns speaker 1, but the immediate second
call hits the rate limiter (`elapsed < step_ms`, where `new` clamps
`step_ms` to at least 200 ms) and returns `None` — no decision at all, so
the diarizer does not return the same `speaker_id` twice and no second
similarity exists.  Moreover, with the default 2000 ms window a
*one-second* 16 kHz clip is rejected outright
(`resampled.len() < window_samples`) and even the first call returns
`None`. -/
theorem speaker_second_call_rate_limited :
    (process_window diarC8 clipC8 16000 1 0).1 =
      some { speakerId := some 1, similarity := none, mixed := false } ∧
    (process_window (process_window diarC8 clipC8 16000 1 0).2 clipC8
      16000 1 0).1 = none ∧
    (process_window
      { diarC8 with config := { diarC8.config with windowMs := 2000 } }
      oneSecondC8 16000 1 0).1 = none := by
  refine ⟨by rw [first_call_eq], ?_, ?_⟩
  · rw [first_call_eq]
    show (process_window diarC8' clipC8 16000 1 0).1 = none
    rw [process_window_rate_limited diarC8' clipC8 16000 1 0 0 rfl (by decide)]
  · rw [process_window_too_short _ _ _ _ _ rfl ?_]
    · norm_num [resample_to_16k, mix_to_mono, natMax, ms_to_samples,
        saturatingMulU64, natMin, U64_MAX, oneSecondC8, diarC8, mkStepMs]

/-- Claim C8 (amended): back-to-back processing is rate-limited, so the
spec's literal claim fails; what the code guarantees instead is: (a) the
diarizer's step is clamped to at least 200 ms at construction, so an
immediate second call is always rate-limited; (b) a call within `step_ms`
of the last processed timestamp returns no decision and leaves the
diarizer unchanged; (c) the cluster-level stability behind the spec's
intent does hold: for a (normalized) embedding whose self-similarity is 1
and a new-speaker threshold at most 1, classifying it twice starting from
an empty clusterer yields speaker id 1 both times, the second decision's
similarity is exactly 1, and hence is at least `update_threshold`
whenever `update_threshold ≤ 1`. -/
theorem speaker_stability_amended :
    (∀ hop, 200 ≤ mkStepMs hop) ∧
    (∀ (d : SpeakerDiarizer) (samples : List Rat) (rate ch t now : Nat),
      d.lastProcessed = some t → now - t < d.config.stepMs →
      process_window d samples rate ch now = (none, d)) ∧
    (∀ (cfg : DiarizerConfig) (sq : Rat → Rat) (e : List Rat),
      cosine_similarity e e = 1 → cfg.newThreshold ≤ 1 →
      (SpeakerClusterer.new.classify sq e cfg).1.speakerId = some 1 ∧
      ((SpeakerClusterer.new.classify sq e cfg).2.classify sq e
        cfg).1.speakerId = some 1 ∧
      ((SpeakerClusterer.new.classify sq e cfg).2.classify sq e
        cfg).1.similarity = some 1 ∧
      (cfg.updateThreshold ≤ 1 →
        ∃ s, ((SpeakerClusterer.new.classify sq e cfg).2.classify sq e
          cfg).1.similarity = some s ∧ cfg.updateThreshold ≤ s)) := by
  refine ⟨?_, ?_, ?_⟩
  · intro hop
    unfold mkStepMs natMax
    split
    · exact le_refl 200
    · rename_i h
      omega
  · intro d samples rate ch t now hlast hnow
    exact process_window_rate_limited d samples rate ch t now hlast hnow
  · intro cfg sq e hcos hnew
    have h1 : SpeakerClusterer.new.classify sq e cfg =
        ({ speakerId := some 1, similarity := none, mixed := false },
          { speakers := [{ id := 1, centroid := e }], nextId := 2 }) := by
      simp [SpeakerClusterer.classify, SpeakerClusterer.new, natMin]
    have h2 : (({ speakers := [{ id := 1, centroid := e }], nextId := 2 } :
        SpeakerClusterer).classify sq e cfg).1 =
        { speakerId := some 1, similarity := some 1, mixed := false } := by
      unfold SpeakerClusterer.classify
      rw [if_neg (by simp)]
      have hbest : bestScan e [{ id := 1, centroid := e }] = (0, some 1) := by
        unfold bestScan
        simp [List.enum, List.enumFrom, hcos]
      dsimp only
      rw [hbest]
      simp only [Option.getD_some]
      rw [if_neg (not_lt.mpr hnew)]
      rfl
    have e1 : ((SpeakerClusterer.new.classify sq e cfg).2.classify sq e
        cfg).1 = { speakerId := some 1, similarity := some 1, mixed := false } := by
      rw [h1]
      exact h2
    refine ⟨?_, ?_, ?_, ?_⟩
    · rw [h1]
    · rw [e1]
    · rw [e1]
    · intro hupd
      exact ⟨1, by rw [e1], hupd⟩

/-- Config with both thresholds equal to 1, for the witness below. -/
def cfgC8W : DiarizerConfig :=
  { newThreshold := 1, updateThreshold := 1, maxSpeakers := none,
    windowMs := 1000, stepMs := 1000, minRmsAmpSq := 0, updateAlpha := 1 }

theorem speaker_stability_amended_witness :
    200 ≤ mkStepMs none ∧
    (diarC8'.lastProcessed = some 0 ∧ 0 - 0 < diarC8'.config.stepMs ∧
      process_window diarC8' [] 16000 1 0 = (none, diarC8')) ∧
    (cosine_similarity [1] [1] = 1 ∧ cfgC8W.newThreshold ≤ 1 ∧
      (SpeakerClusterer.new.classify (fun x => x) [1] cfgC8W).1.speakerId =
        some 1 ∧
      ((SpeakerClusterer.new.classify (fun x => x) [1] cfgC8W).2.classify
        (fun x => x) [1] cfgC8W).1.speakerId = some 1 ∧
      ((SpeakerClusterer.new.classify (fun x => x) [1] cfgC8W).2.classify
        (fun x => x) [1] cfgC8W).1.similarity = some 1) := by
  have hcos : cosine_similarity [1] [1] = (1 : Rat) := by
    simp [cosine_similarity]
  have h := speaker_stability_amended.2.2 cfgC8W (fun x => x) [1] hcos
    (le_refl 1)
  exact ⟨speaker_stability_amended.1 none,
    ⟨rfl, by decide,
      speaker_stability_amended.2.1 diarC8' [] 16000 1 0 0 rfl (by decide)⟩,
    ⟨hcos, le_refl 1, h.1, h.2.1, h.2.2.1⟩⟩

end Speaker

end AiMeeting
